import Mathlib

/-!
Verification of the Document Index & Navigation Engine of the `auntie`
repository (src/src/modules/MetaTextEngine.js, src/src/modules/path-utils.js,
src/src/modules/constants.js).

Strings are modelled as `List Char` (JavaScript strings over their code
points; all inputs of interest are ASCII).  JavaScript regular expressions
that appear in the source are anchored character-class scans and splits;
they are modelled by the equivalent `takeWhile` / maximal-run operations,
as noted at each definition.  The Node.js `path` module (POSIX flavour) is
modelled explicitly below.
-/

/-- Convert a Lean string literal to the `List Char` representation used
throughout this development. -/
def sl (s : String) : List Char := s.data

/-- JavaScript whitespace (`\s`) restricted to the ASCII range:
space, tab, line feed, vertical tab, form feed, carriage return. -/
def jsIsSpace (c : Char) : Bool :=
  c = ' ' || c = '\t' || c = '\n' || c = '\r' || c.toNat = 11 || c.toNat = 12

/-- `String.prototype.trim()`: drop leading and trailing whitespace. -/
def jsTrim (l : List Char) : List Char :=
  ((l.dropWhile jsIsSpace).reverse.dropWhile jsIsSpace).reverse

/-- JavaScript word character class `\w` = `[A-Za-z0-9_]`. -/
def isWordChar (c : Char) : Bool :=
  c.isAlpha || c.isDigit || c = '_'

/-- Character class of `NUMBERING_PATTERN = /^[\d\W_]+/` from
src/src/modules/constants.js: a digit, an underscore, or any non-word
character. -/
def numPatChar (c : Char) : Bool :=
  c.isDigit || c = '_' || !(isWordChar c)

/-- Separator class of the split `/[\W_]+/` used by `_extractNumbering`:
a non-word character or an underscore. -/
def numSepChar (c : Char) : Bool :=
  !(isWordChar c) || c = '_'

/-- Maximal runs of characters satisfying `keep`, in order; separator
characters are discarded.  `text.split(/[sep]+/).filter(tok => tok != '')`
(a split on separator runs followed by discarding empty strings) yields
exactly the maximal runs of non-separator characters, which is how this
function models such split-and-filter steps of the source. -/
def chunksBy (keep : Char → Bool) (l : List Char) : List (List Char) :=
  (l.foldr
    (fun c p =>
      if keep c then
        match p with
        | (ch :: rest, true) => ((c :: ch) :: rest, true)
        | (chunks, _) => ([c] :: chunks, true)
      else (p.1, false))
    (([] : List (List Char)), false)).1

/-- The zero-stripping loop of `_extractNumbering`:
`while (token.charAt(0) == '0' && token.length > 1) token = token.slice(1)`. -/
def stripLeadZeros : List Char → List Char
  | '0' :: c :: rest => stripLeadZeros (c :: rest)
  | l => l

/-- `parseInt` on a token made of decimal digits. -/
def parseDigits (t : List Char) : Nat :=
  t.foldl (fun a c => a * 10 + (c.toNat - '0'.toNat)) 0

/-- `_extractNumbering` (MetaTextEngine.js lines 328-351): trim the text,
take the leading `NUMBERING_PATTERN` match, split it on `/[\W_]+/`
discarding empty tokens, strip leading zeros from each token and parse it
as an integer; `none` models every `return null`. -/
def extractNumbering (text : List Char) : Option (List Nat) :=
  let t := jsTrim text
  if t.isEmpty then none
  else
    let matchedString := t.takeWhile numPatChar
    if matchedString.isEmpty then none
    else
      let rawSegments := chunksBy (fun c => !(numSepChar c)) matchedString
      if rawSegments.isEmpty then none
      else some (rawSegments.map (fun tok => parseDigits (stripLeadZeros tok)))

/-- Twin of `extractNumbering` written from the specification's words
(spec §4.1): scan a leading run composed only of digits, non-alphanumeric
punctuation and underscores; split it on any non-word-or-underscore
boundary into tokens, discarding empty tokens; strip leading zeros from
each token (retaining at least one digit) and parse it as an integer;
return null if no tokens survive. -/
def extractNumberingSpec (text : List Char) : Option (List Nat) :=
  let run := (jsTrim text).takeWhile (fun c => c.isDigit || !(c.isAlphanum) || c = '_')
  let tokens := chunksBy (fun c => isWordChar c && c ≠ '_') run
  if tokens.isEmpty then none
  else some (tokens.map (fun tok => parseDigits (stripLeadZeros tok)))

/-- The tail of the comparison loop of `_multiPartComparison` once the
first operand is exhausted: each missing `aSegments[i]` reads as `0`, so
the delta at each remaining position is `0 - bSegments[i]`. -/
def segDeltaB : List Nat → Int
  | [] => 0
  | b :: bs => if (0 : Int) - (b : Int) ≠ 0 then (0 : Int) - (b : Int) else segDeltaB bs

/-- The comparison loop of `_multiPartComparison` (lines 397-404): walk both
segment lists up to the longer length, reading missing entries as `0`
(`aSegments[i] || 0`), and return the first non-zero difference, else `0`. -/
def segDelta : List Nat → List Nat → Int
  | [], bs => segDeltaB bs
  | a :: as, [] => if (a : Int) ≠ 0 then (a : Int) else segDelta as []
  | a :: as, b :: bs => if (a : Int) - (b : Int) ≠ 0 then (a : Int) - (b : Int) else segDelta as bs

/-- `_multiPartComparison` (lines 369-409), expressed on the `numbering`
fields of the two units: 0 when either numbering is null or has no
segments; otherwise the first non-zero padded segment difference, falling
back to the difference of the segment counts. -/
def cmpNumbering (na nb : Option (List Nat)) : Int :=
  match na with
  | none => 0
  | some aSegments =>
    if aSegments.length = 0 then 0
    else
      match nb with
      | none => 0
      | some bSegments =>
        if bSegments.length = 0 then 0
        else
          let d := segDelta aSegments bSegments
          if d ≠ 0 then d else (aSegments.length : Int) - (bSegments.length : Int)

/-- Pad a segment list with trailing zeros up to length `n`. -/
def padTo (n : Nat) (l : List Nat) : List Nat :=
  l ++ List.replicate (n - l.length) 0

/-- Twin of `cmpNumbering` written from the specification's words
(spec §4.1): 0 if either signature is null or empty; otherwise compare
element-wise up to the longer length treating missing trailing elements
as 0 — the first non-zero element difference decides — and when every
compared element ties, the longer signature sorts after the shorter. -/
def cmpNumberingSpec (na nb : Option (List Nat)) : Int :=
  match na, nb with
  | none, _ => 0
  | _, none => 0
  | some a, some b =>
    if a.isEmpty || b.isEmpty then 0
    else
      let n := max a.length b.length
      let diffs := List.zipWith (fun (x y : Nat) => (x : Int) - (y : Int)) (padTo n a) (padTo n b)
      match diffs.find? (· ≠ 0) with
      | some d => d
      | none => (a.length : Int) - (b.length : Int)

/-! ## Model of the Node.js `path` module (POSIX flavour)

The engine runs Node's `path` functions on POSIX-style paths; they are
modelled here on `List Char`.  `process.cwd()` (used by `path.resolve` on
relative inputs) is modelled as the filesystem root. -/

/-- POSIX path separator test. -/
def isSep (c : Char) : Bool := c = '/'

/-- `path.posix.dirname`. -/
def jsDirname (p : List Char) : List Char :=
  if p = [] then sl "."
  else
    let hasRoot := p.head? = some '/'
    let rest := (p.reverse.dropWhile isSep).dropWhile (fun c => !(isSep c))
    if rest.length ≤ 1 then (if hasRoot then sl "/" else sl ".")
    else if hasRoot ∧ rest.length = 2 then sl "//"
    else rest.tail.reverse

/-- `path.posix.basename` (one-argument form). -/
def jsBasename (p : List Char) : List Char :=
  let afterTrail := p.reverse.dropWhile isSep
  if afterTrail = [] then (if p = [] then [] else sl "/")
  else (afterTrail.takeWhile (fun c => !(isSep c))).reverse

/-- `path.posix.basename(path, suffix)`: the base name with one trailing
occurrence of `suffix` removed, unless the base name equals the suffix. -/
def jsBasenameSuffix (p suffix : List Char) : List Char :=
  let base := jsBasename p
  if suffix ≠ [] ∧ suffix ≠ base ∧ suffix.isSuffixOf base
  then base.take (base.length - suffix.length) else base

/-- `path.posix.extname`: the part of the last segment from its final dot,
empty when there is no dot, when the only dot is a leading one (hidden
files), or for the segment `".."`. -/
def jsExtname (p : List Char) : List Char :=
  let seg := jsBasename p
  if seg = sl "/" ∨ seg = [] then []
  else
    match seg.reverse.findIdx? (· = '.') with
    | none => []
    | some j =>
      let k := seg.length - 1 - j
      if k = 0 then [] else if seg = sl ".." then [] else seg.drop k

/-- Split a path into its (non-empty) segments. -/
def pathSegs (p : List Char) : List (List Char) :=
  chunksBy (fun c => !(isSep c)) p

/-- Normalisation of an absolute path's segments (`.` removed, `..` popped,
surplus `..` at the root dropped), as performed by `path.posix.resolve`. -/
def normSegsAbs (segs : List (List Char)) : List (List Char) :=
  segs.foldl
    (fun acc seg =>
      if seg = sl "." then acc
      else if seg = sl ".." then acc.dropLast
      else acc ++ [seg]) []

/-- `path.posix.resolve` on a single argument, with the working directory
modelled as the filesystem root. -/
def pathResolve (p : List Char) : List Char :=
  let q := if p.head? = some '/' then p else '/' :: p
  '/' :: List.intercalate (sl "/") (normSegsAbs (pathSegs q))

/-- Length of the common prefix of two segment lists. -/
def commonPrefixLen : List (List Char) → List (List Char) → Nat
  | a :: as, b :: bs => if a = b then commonPrefixLen as bs + 1 else 0
  | _, _ => 0

/-- `path.posix.relative`: resolve both paths; identical locations give the
empty string, otherwise climb out of the unshared part of `fromP` with
`..` segments and descend into the unshared part of `toP`. -/
def pathRelative (fromP toP : List Char) : List Char :=
  let f := pathResolve fromP
  let t := pathResolve toP
  if f = t then []
  else
    let fs := pathSegs f
    let ts := pathSegs t
    let k := commonPrefixLen fs ts
    List.intercalate (sl "/") (List.replicate (fs.length - k) (sl "..") ++ ts.drop k)

/-! ## path-utils.js -/

/-- `getFileName` (path-utils.js lines 28-31):
`Path.basename(pathString, trimExtension ? Path.extname(pathString) : '')`. -/
def getFileName (pathString : List Char) (trimExtension : Bool) : List Char :=
  jsBasenameSuffix pathString (if trimExtension then jsExtname pathString else [])

/-- `changeFileExtension` (path-utils.js lines 12-14):
`getFileName(fileName, true) + (newExtension ? ('.' + newExtension) : '')`. -/
def changeFileExtension (fileName newExtension : List Char) : List Char :=
  getFileName fileName true ++ (if newExtension ≠ [] then '.' :: newExtension else [])

/-! ## `_makeRelUrl` (MetaTextEngine.js lines 105-124) -/

/-- Character class of `LEFT_SEP = /^[\\\/]+/` and `RIGHT_SEP = /[\\\/]+$/`:
a backslash or a forward slash. -/
def isSepBS (c : Char) : Bool := c = '\\' || c = '/'

/-- Strip a leading run of (back)slashes (`replace(LEFT_SEP, '')`). -/
def leftStrip (l : List Char) : List Char := l.dropWhile isSepBS

/-- Strip a trailing run of (back)slashes (`replace(RIGHT_SEP, '')`). -/
def rightStrip (l : List Char) : List Char := (l.reverse.dropWhile isSepBS).reverse

/-- Replace every maximal run of characters satisfying `p` by the single
character `r` (a global `replace(/X+/g, r)`). -/
def replaceRuns (p : Char → Bool) (r : Char) (l : List Char) : List Char :=
  (l.foldr
    (fun c st =>
      if p c then (if st.2 then st else (r :: st.1, true))
      else (c :: st.1, false))
    (([] : List Char), false)).1

/-- `replace(BACKSLASH, '/')` with `BACKSLASH = /\\+/g`. -/
def bsToSlash (l : List Char) : List Char := replaceRuns (· = '\\') '/' l

/-- `_makeRelUrl(fromPath, toPath, fileType, assumeFolders)`: the relative
URL leading from the document at `fromPath` to the one at `toPath`. -/
def makeRelUrl (fromPath toPath fileType : List Char) (assumeFolders : Bool) : List Char :=
  let targetFileName := changeFileExtension (getFileName toPath false) fileType
  let fromDirPath := jsDirname fromPath
  let toDirPath := jsDirname toPath
  let relPath := rightStrip (leftStrip (jsTrim (pathRelative fromDirPath toDirPath)))
  let segments : List (List Char) :=
    if assumeFolders then [] else [rightStrip (leftStrip (jsTrim targetFileName))]
  let segments := if relPath ≠ [] then relPath :: segments else segments
  bsToSlash (List.intercalate (sl "/") segments)

/-! ## `tidyUpLabel` (MetaTextEngine.js lines 250-314) -/

/-- The `KNOWN_LOWER_CASE` list of small words. -/
def KNOWN_LOWER_CASE : List (List Char) :=
  [sl "a", sl "an", sl "and", sl "as", sl "at", sl "but", sl "by", sl "en",
   sl "for", sl "if", sl "in", sl "of", sl "on", sl "or", sl "the", sl "to",
   sl "v", sl "v.", sl "via", sl "vs", sl "vs."]

/-- The built-in `KNOWN_UPPER_CASE` acronym list (before custom acronyms
from the options are appended). -/
def KNOWN_UPPER_CASE_BASE : List (List Char) :=
  [sl "todo", sl "imo", sl "imho", sl "afaik", sl "fyi", sl "at&t", sl "q&a",
   sl "ui", sl "ux", sl "rsvp", sl "eta", sl "faq", sl "atm", sl "rip",
   sl "p.s.", sl "diy", sl "id", sl "iq", sl "gmo", sl "pc", sl "pr",
   sl "sos", sl "ad", sl "bc", sl "hr"]

/-- `String.prototype.toLowerCase` (ASCII model). -/
def toLowerL (l : List Char) : List Char := l.map Char.toLower

/-- `String.prototype.toUpperCase` (ASCII model). -/
def toUpperL (l : List Char) : List Char := l.map Char.toUpper

/-- `(label.match(/X+/g) || []).length`: the number of maximal runs of
characters satisfying `p`. -/
def countRuns (p : Char → Bool) (l : List Char) : Nat := (chunksBy p l).length

/-- Dash character test (`DASH_PATTERN = /[\-]+/g`). -/
def isDash (c : Char) : Bool := c = '-'

/-- Underscore character test (`UNDERSCORE_PATTERN = /[\_]+/g`). -/
def isUnderscore (c : Char) : Bool := c = '_'

/-- Dash-or-underscore test (`DASH_AND_UNDERSCORE_PATTERN = /[\_\-]+/g`). -/
def isDashOrUnderscore (c : Char) : Bool := c = '-' || c = '_'

/-- `token.replace(/\w\S*/g, txt => txt.charAt(0).toUpperCase() +
txt.substr(1).toLowerCase())` on a token that contains no whitespace:
leave any leading non-word characters, upper-case the first word
character, lower-case the rest. -/
def capToken : List Char → List Char
  | [] => []
  | c :: rest => if isWordChar c then c.toUpper :: toLowerL rest else c :: capToken rest

/-- `String.prototype.split(sep)` for a single-character separator
(empty pieces are kept, as in JavaScript). -/
def splitChar (sep : Char) (l : List Char) : List (List Char) :=
  l.foldr
    (fun c acc =>
      if c = sep then [] :: acc
      else
        match acc with
        | h :: t => (c :: h) :: t
        | [] => [[c]])
    [[]]

/-- `Array.prototype.join(sep)` for a single-character separator. -/
def joinChar (sep : Char) (ls : List (List Char)) : List Char := List.intercalate [sep] ls

/-- The body of `tidyUpLabel` after the blank-label early return, on the
already-trimmed label: numbering stripping, separator normalisation,
case normalisation with the small-word and acronym lists, and the final
en-dash substitution. -/
def tidyUpLabelCore (customAcronyms : List (List Char)) (label0 : List Char)
    (removeNumbering : Bool) : List Char :=
  let knownUpper := KNOWN_UPPER_CASE_BASE ++ customAcronyms.map toLowerL
  let l1 := if removeNumbering then jsTrim (label0.dropWhile numPatChar) else label0
  let numSpaceUses := countRuns jsIsSpace l1
  let numDashUses := countRuns isDash l1
  let numUnderScoreUses := countRuns isUnderscore l1
  let labelUsesDashesOrUnderscores := numDashUses > 0 || numUnderScoreUses > 0
  let whiteSpaceIsScarce := decide (numSpaceUses < max numDashUses numUnderScoreUses)
  let mustEnforceWhiteSpace := labelUsesDashesOrUnderscores && whiteSpaceIsScarce
  let l2 :=
    if mustEnforceWhiteSpace then
      (if numDashUses > numUnderScoreUses then replaceRuns isDash ' ' l1
       else if numUnderScoreUses > numDashUses then replaceRuns isUnderscore ' ' l1
       else replaceRuns isDashOrUnderscore ' ' l1)
    else l1
  let l3 := jsTrim (replaceRuns jsIsSpace ' ' l2)
  let isAllCaps := toUpperL l3 == l3
  let isAllLower := toLowerL l3 == l3
  let mustChangeCase := isAllCaps || isAllLower
  let l4 :=
    if mustChangeCase then
      let low := toLowerL l3
      let tokens := splitChar ' ' low
      let n := tokens.length
      joinChar ' '
        (tokens.mapIdx (fun i token =>
          if KNOWN_LOWER_CASE.contains token && decide (i ≠ 0) && decide (i ≠ n - 1)
          then toLowerL token
          else if knownUpper.contains token then toUpperL token
          else capToken token))
    else l3
  replaceRuns isDash '–' l4

/-- `tidyUpLabel` (lines 250-314): `null` is tolerated and passed through;
a label that trims to nothing is returned unchanged; otherwise the
transformation pipeline runs on the trimmed label. -/
def tidyUpLabel (customAcronyms : List (List Char)) (label : Option (List Char))
    (removeNumbering : Bool) : Option (List Char) :=
  let changedLabel := jsTrim (label.getD [])
  if changedLabel.isEmpty then label
  else some (tidyUpLabelCore customAcronyms changedLabel removeNumbering)

/-! ## The engine state (MetaTextEngine.js closure state)

Compilation units are stored in an arena (`units`, modelling
`_flatCompilationsList`, where a unit's identifier is its insertion
index); object references of the JavaScript source become arena indices.
A `children` array of a unit doubles as a sibling group; `_rawGroups`,
which in the source holds references to those arrays, is modelled by the
list of the owning units' indices. -/

/-- The `DIR` marker extension (constants.js). -/
def DIR : List Char := sl "907d1e2a-6bc2-49d5-b036-57dcea0d9cf1"

/-- The `ROOT` marker extension (constants.js). -/
def ROOT : List Char := sl "8af35ebb-6e35-49b6-988d-42787ab7110d"

/-- A compilation unit (the record built by `addRootToIndex`,
`addDirectoryToIndex` and `addFileToIndex`).  Absent JavaScript
properties (`numbering`, `children`, `parent`) are `none`; the boolean
flags default to `false` as absent properties are falsy. -/
structure CUnit where
  filePath : List Char
  fileName : List Char
  fileExtension : List Char
  fileCTime : Nat
  fileMTime : Nat
  fileHeader : List Char
  numberingSignature : List Char
  numbering : Option (List Nat)
  isNode : Bool
  mustExclude : Bool
  parent : Option (List Char)
  children : Option (List Nat)
deriving DecidableEq, Repr

instance : Inhabited CUnit :=
  ⟨⟨[], [], [], 0, 0, [], [], none, false, false, none, none⟩⟩

/-- `_multiPartComparison` (lines 369-409) on two units. -/
def multiPartComparison (unitA unitB : CUnit) : Int :=
  cmpNumbering unitA.numbering unitB.numbering

/-- The closure state of one `MetaTextEngine` instance. -/
structure EngineState where
  isIndexSealed : Bool
  units : List CUnit
  navTree : List Nat
  rawGroups : List Nat
  foldersToExclude : List (List Char)
  mustHideNavNumbering : Bool
  customAcronyms : List (List Char)
deriving DecidableEq, Repr

/-- A fresh engine (`new MetaTextEngine(...)`) with the given
`hideNavigationNumbering` and `customAcronyms` options. -/
def mkEngine (hideNumbering : Bool) (acronyms : List (List Char)) : EngineState :=
  ⟨false, [], [], [], [], hideNumbering, acronyms⟩

/-- Failures of the insertion operations: the seal guard, and the crash on
a missing parent unit (a `TypeError` in the source). -/
inductive EngineError where
  | indexSealed
  | missingParent
deriving DecidableEq, Repr

/-- Unit lookup by arena index. -/
def getU (s : EngineState) (i : Nat) : CUnit := s.units.getD i default

/-- Replace the unit at arena index `i`. -/
def setU (s : EngineState) (i : Nat) (u : CUnit) : EngineState :=
  { s with units := s.units.set i u }

/-- Replace the `children` list of the unit at arena index `i`. -/
def setChildren (s : EngineState) (i : Nat) (cs : List Nat) : EngineState :=
  setU s i { getU s i with children := some cs }

/-- `_flatCompilationsList.filter(u => u.filePath == p)[0]`, as an index. -/
def findUnitIdx (units : List CUnit) (p : List Char) : Option Nat :=
  units.findIdx? (fun u => u.filePath == p)

/-- `numbering.join('.') + '. '`. -/
def numToSig (n : List Nat) : List Char :=
  joinChar '.' (n.map (fun k => sl (toString k))) ++ sl ". "

/-- `addRootToIndex` (lines 565-581). -/
def addRootToIndex (s : EngineState) (rootPath rootName : List Char)
    (rootCtime rootMTime : Nat) : Except EngineError EngineState :=
  if s.isIndexSealed then .error .indexSealed
  else
    let unit : CUnit :=
      { filePath := rootPath, fileName := rootName, fileExtension := ROOT,
        fileCTime := rootCtime, fileMTime := rootMTime,
        fileHeader := (tidyUpLabel s.customAcronyms (some rootName) true).getD [],
        numberingSignature := [], numbering := none, isNode := true,
        mustExclude := false, parent := none, children := none }
    .ok { s with navTree := s.units.length :: s.navTree, units := s.units ++ [unit] }

/-- `addDirectoryToIndex` (lines 599-637). -/
def addDirectoryToIndex (s : EngineState) (dirPath dirName : List Char)
    (dirCtime dirMTime : Nat) : Except EngineError EngineState :=
  if s.isIndexSealed then .error .indexSealed
  else
    let id := s.units.length
    let unit0 : CUnit :=
      { filePath := dirPath, fileName := dirName, fileExtension := DIR,
        fileCTime := dirCtime, fileMTime := dirMTime, fileHeader := dirName,
        numberingSignature := [], numbering := none, isNode := false,
        mustExclude := false, parent := none, children := none }
    let units1 := s.units ++ [unit0]
    match findUnitIdx units1 (jsDirname dirPath) with
    | none => .error .missingParent
    | some pIdx =>
      let parentPath := (units1.getD pIdx default).filePath
      let units2 := units1.set id { units1.getD id default with parent := some parentPath }
      let units3 := units2.set pIdx { units2.getD pIdx default with isNode := true }
      let noChildren := (units3.getD pIdx default).children = none
      let units4 :=
        if noChildren
        then units3.set pIdx { units3.getD pIdx default with children := some [] }
        else units3
      let rawGroups1 := if noChildren then s.rawGroups ++ [pIdx] else s.rawGroups
      let pu := units4.getD pIdx default
      let units5 := units4.set pIdx { pu with children := some (pu.children.getD [] ++ [id]) }
      let numbering := extractNumbering dirName
      let units6 :=
        match numbering with
        | some n =>
          units5.set id
            { units5.getD id default with numbering := some n, numberingSignature := numToSig n }
        | none => units5
      let u := units6.getD id default
      let headerPre := if s.mustHideNavNumbering then [] else u.numberingSignature
      let units7 :=
        units6.set id
          { u with
            fileHeader := headerPre ++ (tidyUpLabel s.customAcronyms (some u.fileHeader) true).getD [] }
      .ok { s with units := units7, rawGroups := rawGroups1 }

/-- `addFileToIndex` (lines 663-711). -/
def addFileToIndex (s : EngineState) (filePath fileName fileExtension : List Char)
    (fileCTime fileMTime : Nat) (fileHeader : Option (List Char)) :
    Except EngineError EngineState :=
  if s.isIndexSealed then .error .indexSealed
  else
    let id := s.units.length
    let unit0 : CUnit :=
      { filePath := filePath, fileName := fileName, fileExtension := fileExtension,
        fileCTime := fileCTime, fileMTime := fileMTime,
        fileHeader := fileHeader.getD [], numberingSignature := [],
        numbering := none, isNode := false, mustExclude := false,
        parent := none, children := none }
    let units1 := s.units ++ [unit0]
    let numbering :=
      match extractNumbering fileName with
      | some n => some n
      | none => extractNumbering (fileHeader.getD [])
    let units2 :=
      match numbering with
      | some n =>
        units1.set id
          { units1.getD id default with numbering := some n, numberingSignature := numToSig n }
      | none => units1
    let headerSrc :=
      match fileHeader with
      | some h => if h = [] then changeFileExtension fileName [] else h
      | none => changeFileExtension fileName []
    let u := units2.getD id default
    let headerPre := if s.mustHideNavNumbering then [] else u.numberingSignature
    let units3 :=
      units2.set id
        { u with
          fileHeader := headerPre ++ (tidyUpLabel s.customAcronyms (some headerSrc) true).getD [] }
    match findUnitIdx units3 (jsDirname filePath) with
    | none => .error .missingParent
    | some pIdx =>
      let parentPath := (units3.getD pIdx default).filePath
      let units4 := units3.set id { units3.getD id default with parent := some parentPath }
      let units5 := units4.set pIdx { units4.getD pIdx default with isNode := true }
      let noChildren := (units5.getD pIdx default).children = none
      let units6 :=
        if noChildren
        then units5.set pIdx { units5.getD pIdx default with children := some [] }
        else units5
      let rawGroups1 := if noChildren then s.rawGroups ++ [pIdx] else s.rawGroups
      let pu := units6.getD pIdx default
      let units7 := units6.set pIdx { pu with children := some (pu.children.getD [] ++ [id]) }
      .ok { s with units := units7, rawGroups := rawGroups1 }

/-! ## `buildIndex` (MetaTextEngine.js lines 723-774) -/

/-- The inner do-loop of the exclusion phase: repeatedly take
`Path.dirname`, stop on reaching the root folder path, and collect each
new ancestor into the exclusion list.  The source loops unboundedly (the
root is always an ancestor of a skipped file); the fuel provided by the
caller, one unit per path character, is enough whenever that holds. -/
def collectAncLoop (rootFolderPath : List Char) :
    Nat → List Char → List (List Char) → List (List Char)
  | 0, _, acc => acc
  | fuel + 1, skippedPath, acc =>
    let p1 := jsDirname skippedPath
    if p1 = rootFolderPath then acc
    else
      let acc1 := if acc.contains p1 then acc else acc ++ [p1]
      collectAncLoop rootFolderPath fuel p1 acc1

/-- The exclusion phase of `buildIndex` (lines 727-744): collect the
directory-ancestor chains of all skipped paths (stopping below the root)
into `_foldersToExclude`, then set `mustExclude` on every registered unit
whose path was collected. -/
def applyExclusions (s : EngineState) (skippedFilePaths : List (List Char)) : EngineState :=
  if skippedFilePaths.isEmpty then s
  else
    match s.units.head? with
    | none => s
    | some rootUnit =>
      let rootFolderPath := rootUnit.filePath
      let folders :=
        skippedFilePaths.foldl
          (fun acc p => collectAncLoop rootFolderPath (p.length + 1) p acc)
          s.foldersToExclude
      if folders.isEmpty then { s with foldersToExclude := folders }
      else
        { s with
          foldersToExclude := folders,
          units := s.units.map
            (fun u => if folders.contains u.filePath then { u with mustExclude := true } else u) }

/-- One step of the stable sort that models `Array.prototype.sort`: insert
`x` into the reversed already-sorted prefix, moving it left past exactly
those elements it strictly precedes under the comparator. -/
def insRev {α : Type} (cmp : α → α → Int) (x : α) : List α → List α
  | [] => [x]
  | y :: ys => if cmp x y < 0 then y :: insRev cmp x ys else x :: y :: ys

/-- Model of `Array.prototype.sort(comparator)`: a stable insertion sort,
processing the array left to right and placing each element after every
earlier element it does not strictly precede.  ECMAScript pins down the
result of `sort` only when the comparator is consistent on the array; for
consistent inputs every conforming implementation returns the unique
stable sorted order, which this model computes.  `_multiPartComparison`
is consistent on a group exactly when the group is numbering-homogeneous
(every member keyed, or none); on mixed groups the engine's order is
implementation-defined (V8's run detection followed by binary insertion
can move an element past an unkeyed one it was never compared against),
so the ordering theorems below assume homogeneity wherever they assert
tie order, and use mixed groups only where run detection provably leaves
the engine's array unchanged too (an adjacent scan that never compares
negatively, as in the C2 counterexample group). -/
def jsSort {α : Type} (cmp : α → α → Int) (l : List α) : List α :=
  (l.foldl (fun acc x => insRev cmp x acc) []).reverse

/-- `group.sort(_multiPartComparison)` on a children list of arena ids. -/
def sortOwner (s : EngineState) (o : Nat) : EngineState :=
  match (getU s o).children with
  | none => s
  | some ids =>
    setChildren s o (jsSort (fun i j => multiPartComparison (getU s i) (getU s j)) ids)

/-- `_rawGroups.forEach(group => group.sort(_multiPartComparison))`. -/
def sortGroups (s : EngineState) : EngineState :=
  s.rawGroups.foldl sortOwner s

/-- Whether `unit` at position `i` is promoted under `prevUnit` at `i - 1`
(lines 758-760): both non-directories, both carrying a numbering, and the
unit's numbering strictly longer. -/
def promotable (prevUnit unit : CUnit) : Bool :=
  unit.fileExtension ≠ DIR && prevUnit.fileExtension ≠ DIR &&
  unit.numbering.isSome && prevUnit.numbering.isSome &&
  (unit.numbering.getD []).length > (prevUnit.numbering.getD []).length

/-- The promotion scan of one sibling group (the inner do-while of lines
754-772), with `owner` the unit whose `children` array is the group and
`queue` the remainder of `_rawGroups`.  On promotion the unit is spliced
out of the group and appended to its left neighbour's `children` (created
and enqueued when absent), and the scan index is not advanced.  Every
iteration either advances the index or shortens the group, so the fuel
passed by `promoteStep` is sufficient. -/
def scanGroup (s : EngineState) (owner : Nat) :
    Nat → Nat → List Nat → EngineState × List Nat
  | _, 0, queue => (s, queue)
  | i, fuel + 1, queue =>
    let cs := (getU s owner).children.getD []
    if i < cs.length then
      if 0 < i then
        let uid := cs.getD i 0
        let pid := cs.getD (i - 1) 0
        let u := getU s uid
        let p := getU s pid
        if promotable p u then
          let createList := p.children = none
          let s1 := if createList then setU s pid { p with children := some [] } else s
          let queue1 := if createList then queue ++ [pid] else queue
          let s2 := setChildren s1 owner (cs.eraseIdx i)
          let p2 := getU s2 pid
          let s3 := setU s2 pid
            { p2 with children := some (p2.children.getD [] ++ [uid]), isNode := true }
          scanGroup s3 owner i fuel queue1
        else scanGroup s owner (i + 1) fuel queue
      else scanGroup s owner (i + 1) fuel queue
    else (s, queue)

/-- Fuel that certainly covers one group scan: every iteration advances
the index or shortens the group. -/
def scanFuel (s : EngineState) (owner : Nat) : Nat :=
  2 * ((getU s owner).children.getD []).length + 2

/-- The promotion work-queue loop (lines 751-773), first-in first-out as
in the source (`_rawGroups.shift()`, `_rawGroups.push(children)`).
Returns the state and the part of the queue left unprocessed (empty
whenever the fuel suffices). -/
def promoteLoop : EngineState → List Nat → Nat → EngineState × List Nat
  | s, queue, 0 => (s, queue)
  | s, [], _ => (s, [])
  | s, owner :: rest, fuel + 1 =>
    let r := scanGroup s owner 0 (scanFuel s owner) rest
    promoteLoop r.1 r.2 fuel

/-- A variant of the work-queue loop that processes the most recently
added group first (last-in first-out).  It exists only to state that the
finalised tree of the examples does not depend on the queue processing
order; the source itself uses `promoteLoop`. -/
def promoteLoopAlt : EngineState → List Nat → Nat → EngineState × List Nat
  | s, queue, 0 => (s, queue)
  | s, [], _ => (s, [])
  | s, queue@(_ :: _), fuel + 1 =>
    let owner := queue.getLastD 0
    let r := scanGroup s owner 0 (scanFuel s owner) queue.dropLast
    promoteLoopAlt r.1 r.2 fuel

/-- `buildIndex(skippedFilePaths)` (lines 723-774): seal the index, run
the exclusion phase, sort every sibling group, then run the promotion
work queue.  Any queue remnant left by fuel exhaustion (never on real
inputs) stays in `rawGroups`. -/
def buildIndex (s : EngineState) (skippedFilePaths : List (List Char)) : EngineState :=
  let s1 := { s with isIndexSealed := true }
  let s2 := applyExclusions s1 skippedFilePaths
  let s3 := sortGroups s2
  let r := promoteLoop { s3 with rawGroups := [] } s3.rawGroups
    (s3.rawGroups.length + s3.units.length + 1)
  { r.1 with rawGroups := r.2 }

/-- `buildIndex` with the queue processed last-in first-out instead;
see `promoteLoopAlt`. -/
def buildIndexAlt (s : EngineState) (skippedFilePaths : List (List Char)) : EngineState :=
  let s1 := { s with isIndexSealed := true }
  let s2 := applyExclusions s1 skippedFilePaths
  let s3 := sortGroups s2
  let r := promoteLoopAlt { s3 with rawGroups := [] } s3.rawGroups
    (s3.rawGroups.length + s3.units.length + 1)
  { r.1 with rawGroups := r.2 }

/-- `getRootDirPathFor` (lines 795-806). -/
def getRootDirPathFor (s : EngineState) (filePath : List Char) : List Char :=
  if s.units.isEmpty then []
  else
    let rootAbsPath := (s.units.headD default).filePath
    let homeDirAbsPath := jsDirname filePath
    let rootPathPre := makeRelUrl homeDirAbsPath rootAbsPath [] true
    if rootPathPre ≠ [] then rootPathPre ++ sl "/" else []

/-! ## Navigation rendering (MetaTextEngine.js lines 135-230, 425-523) -/

/-- `NAV_ROOT_TEMPLATE` (constants.js). -/
def NAV_ROOT_TEMPLATE : List Char := sl "<div class=\"navigation\">%s</div>"

/-- `NAV_GROUP_TEMPLATE` (constants.js). -/
def NAV_GROUP_TEMPLATE : List Char := sl "<ul class=\"nav-group\">%s</ul>"

/-- `NAV_ITEM_TEMPLATE` (constants.js). -/
def NAV_ITEM_TEMPLATE : List Char := sl "<li class=\"nav-item\">%s</li>"

/-- `NAV_ITEM_CONTENT_TEMPLATE` (constants.js). -/
def NAV_ITEM_CONTENT_TEMPLATE : List Char := sl "<label class=\"item-content\">%s</label>"

/-- `LINK_TEMPLATE` (constants.js). -/
def LINK_TEMPLATE : List Char := sl "<a href=\"%s\">%s</a>"

/-- `vsprintf` restricted to the `%s` directives used by the templates:
each `%s` is replaced by the next argument in order. -/
def vsprintfS : List Char → List (List Char) → List Char
  | '%' :: 's' :: rest, a :: args => a ++ vsprintfS rest args
  | '%' :: 's' :: rest, [] => '%' :: 's' :: vsprintfS rest []
  | c :: rest, args => c :: vsprintfS rest args
  | [], _ => []

/-- An `HtmlElementProxy` instance: its template, its data, and the
registry keys of its children, in insertion order. -/
structure HtmlProxy where
  template : List Char
  data : List (List Char)
  children : List (List Char)
deriving DecidableEq, Repr

instance : Inhabited HtmlProxy := ⟨⟨[], [], []⟩⟩

/-- The `HtmlElementProxyFactory` registry, as an association list in
creation order. -/
abbrev HtmlRegistry : Type := List (List Char × HtmlProxy)

/-- `getHtmlElementProxy(id, template, data)`: create the proxy only when
the id is not yet registered (a second call with a different template or
data returns the existing instance unchanged). -/
def ensureProxy (reg : HtmlRegistry) (id template : List Char)
    (data : List (List Char)) : HtmlRegistry :=
  if reg.any (fun e => e.1 == id) then reg
  else reg ++ [(id, ⟨template, data, []⟩)]

/-- `proxy.addChild(child)` on the proxy registered under `pid`. -/
def addProxyChild (reg : HtmlRegistry) (pid cid : List Char) : HtmlRegistry :=
  reg.map (fun e => if e.1 == pid then (e.1, { e.2 with children := e.2.children ++ [cid] }) else e)

/-- `HtmlElementProxy.render` (lines 186-190): stringify the children
joined by newlines, append that to the stored data, and instantiate the
template.  The fuel bounds the recursion depth; the registry built by one
render call is acyclic so the caller's fuel always suffices. -/
def renderProxy (reg : HtmlRegistry) : Nat → List Char → List Char
  | 0, _ => []
  | fuel + 1, key =>
    match reg.find? (fun e => e.1 == key) with
    | none => []
    | some e =>
      let strChildren :=
        '\n' :: (List.intercalate (sl "\n") (e.2.children.map (renderProxy reg fuel)) ++ sl "\n")
      vsprintfS e.2.template (e.2.data ++ [strChildren])

/-- `_walkTree` (lines 425-438) with the callback threading a state and
returning the `mustExitNow` flag.  The flag is a property of the function
object in the source, shared across recursion levels and reset to `false`
on entry to every (recursive) call; this is modelled by passing the flag
along and starting each descent with `false`.  The fuel bounds the depth. -/
def walkAux {σ : Type} (s : EngineState) (cb : CUnit → Option CUnit → σ → σ × Bool) :
    Nat → List Nat → Option CUnit → σ → Bool → σ × Bool
  | 0, _, _, st, flag => (st, flag)
  | fuel + 1, ids, parent, st, flag =>
    ids.foldl
      (fun acc i =>
        if acc.2 then acc
        else
          let u := getU s i
          let r1 := cb u parent acc.1
          match u.children with
          | some cids => walkAux s cb fuel cids (some u) r1.1 false
          | none => r1)
      (st, flag)

/-- The state built by `_buildHtmlNavigation`'s walk callback: the proxy
registry and `$.rootHtmlEl` (as the root container's registry key). -/
abbrev NavSt : Type := HtmlRegistry × Option (List Char)

/-- The walk callback of `_buildHtmlNavigation` (lines 452-514).  Every
branch of the source callback returns `undefined`, so the returned
`mustExitNow` flag is always `false`. -/
def navCallback (docId : List Char) (unit : CUnit) (parentUnit : Option CUnit)
    (st : NavSt) : NavSt × Bool :=
  if unit.mustExclude then (st, false)
  else
    let reg := st.1
    let id := unit.filePath
    match parentUnit with
    | none =>
      let reg1 := ensureProxy reg (id ++ sl "#container") NAV_ROOT_TEMPLATE []
      let reg2 := ensureProxy reg1 id NAV_GROUP_TEMPLATE []
      let reg3 := addProxyChild reg2 (id ++ sl "#container") id
      ((reg3, some (id ++ sl "#container")), false)
    | some parent =>
      if unit.isNode then
        let reg1 := ensureProxy reg parent.filePath [] []
        let reg2 := ensureProxy reg1 (id ++ sl "#node_item") NAV_ITEM_TEMPLATE []
        let reg3 :=
          if unit.fileExtension = DIR then
            ensureProxy reg2 (id ++ sl "#node_item_content") NAV_ITEM_CONTENT_TEMPLATE
              [if unit.fileHeader ≠ [] then unit.fileHeader else unit.fileName]
          else
            let regA := ensureProxy reg2 (id ++ sl "#node_item_content")
              NAV_ITEM_CONTENT_TEMPLATE []
            let regB := ensureProxy regA (id ++ sl "#node_content_link") LINK_TEMPLATE
              [makeRelUrl docId unit.filePath (sl "html") false, unit.fileHeader]
            addProxyChild regB (id ++ sl "#node_item_content") (id ++ sl "#node_content_link")
        let reg4 := addProxyChild reg3 (id ++ sl "#node_item") (id ++ sl "#node_item_content")
        let reg5 := addProxyChild reg4 parent.filePath (id ++ sl "#node_item")
        let reg6 := ensureProxy reg5 id NAV_GROUP_TEMPLATE []
        let reg7 := addProxyChild reg6 parent.filePath id
        ((reg7, st.2), false)
      else if unit.fileExtension = DIR then
        let reg1 := ensureProxy reg parent.filePath [] []
        let reg2 := ensureProxy reg1 (id ++ sl "#node_item") NAV_ITEM_TEMPLATE []
        let reg3 := ensureProxy reg2 (id ++ sl "#node_item_content")
          NAV_ITEM_CONTENT_TEMPLATE [unit.fileHeader]
        let reg4 := addProxyChild reg3 (id ++ sl "#node_item") (id ++ sl "#node_item_content")
        let reg5 := addProxyChild reg4 parent.filePath (id ++ sl "#node_item")
        ((reg5, st.2), false)
      else
        let reg1 := ensureProxy reg parent.filePath [] []
        let reg2 := ensureProxy reg1 id NAV_ITEM_TEMPLATE []
        let reg3 := ensureProxy reg2 (id ++ sl "#leaf_item_content")
          NAV_ITEM_CONTENT_TEMPLATE []
        let reg4 := ensureProxy reg3 (id ++ sl "#leaf_content_link") LINK_TEMPLATE
          [makeRelUrl docId unit.filePath (sl "html") false, unit.fileHeader]
        let reg5 := addProxyChild reg4 (id ++ sl "#leaf_item_content") (id ++ sl "#leaf_content_link")
        let reg6 := addProxyChild reg5 id (id ++ sl "#leaf_item_content")
        let reg7 := addProxyChild reg6 parent.filePath id
        ((reg7, st.2), false)

/-- `html-prettify` reindents the markup without changing its content; it
is modelled as the identity. -/
def prettifyS (l : List Char) : List Char := l

/-- The registry and root key produced by `_buildHtmlNavigation`'s walk
over `_abstractNavigationTree`. -/
def buildNavState (s : EngineState) (docId : List Char) : NavSt :=
  (walkAux s (navCallback docId) (s.units.length + 1) s.navTree none ([], none) false).1

/-- `_buildHtmlNavigation(docId)` (lines 448-523): run the walk, then
render and prettify the root container; an empty string when no root
container was created. -/
def buildHtmlNavigation (s : EngineState) (docId : List Char) : List Char :=
  let st := buildNavState s docId
  match st.2 with
  | some rootKey => prettifyS (renderProxy st.1 (st.1.length + 1) rootKey)
  | none => []

/-- `getHtmlNavigationFor` (lines 782-784). -/
def getHtmlNavigationFor (s : EngineState) (filePath : List Char) : List Char :=
  buildHtmlNavigation s filePath

/-- Whether `pat` occurs as a contiguous substring of `l`. -/
def containsSub (l pat : List Char) : Bool :=
  (List.range (l.length + 1)).any (fun i => pat.isPrefixOf (l.drop i))

/-- The children list of the unit at arena index `i` (empty when the
`children` property is absent). -/
def childrenOf (s : EngineState) (i : Nat) : List Nat :=
  (getU s i).children.getD []

/-- The ordering invariant claimed for a finalised sibling list: no child
compares strictly less than its immediate predecessor under
`_multiPartComparison`. -/
def adjOk (s : EngineState) (ids : List Nat) : Prop :=
  List.Chain' (fun i j => 0 ≤ multiPartComparison (getU s j) (getU s i)) ids

/-- The stability invariant for a finalised sibling list: any two children
that compare equal appear in insertion order (arena indices are insertion
indices). -/
def tieStab (s : EngineState) (ids : List Nat) : Prop :=
  List.Pairwise (fun i j => multiPartComparison (getU s i) (getU s j) = 0 → i < j) ids

/-- The all-pairs ordering property asserted by the specification: no
later child compares strictly less than any earlier one. -/
def allPairsOk (s : EngineState) (ids : List Nat) : Prop :=
  List.Pairwise (fun i j => 0 ≤ multiPartComparison (getU s j) (getU s i)) ids

/-- Well-formedness of the index as the filesystem walk produces it,
assumed by the finalisation theorems (all quantifiers bounded by the
arena, so the predicate is decidable on concrete states): children lists
are in insertion order (hence duplicate-free), pairwise disjoint, and
acyclic; non-directory group members have no children; units that are
non-directories yet carry a numbering start childless; numbering keys are
never empty; and `_rawGroups` lists owners of children lists, once each. -/
def wfPre (s : EngineState) : Prop :=
  (∀ k, k < s.units.length → List.Pairwise (· < ·) (childrenOf s k)) ∧
  (∀ k, k < s.units.length → ∀ j, j < s.units.length →
    ∀ x, x ∈ childrenOf s k → x ∈ childrenOf s j → k = j) ∧
  (∀ k, k < s.units.length → ∀ m ∈ childrenOf s k,
    (getU s m).fileExtension ≠ DIR → (getU s m).children = none) ∧
  (∀ k, k < s.units.length → (getU s k).numbering ≠ some ([] : List Nat)) ∧
  s.rawGroups.Nodup ∧
  (∀ k, k < s.units.length → (getU s k).children ≠ none → k ∈ s.rawGroups) ∧
  (∀ k, k < s.units.length → k ∉ childrenOf s k) ∧
  (∀ k, k < s.units.length → (getU s k).fileExtension ≠ DIR →
    (getU s k).numbering ≠ none → (getU s k).children = none) ∧
  (∀ o ∈ s.rawGroups, (getU s o).children ≠ none)

/-- The global invariant the promotion phase preserves: every children
list honours adjacent comparator order and tie insertion-order, the lists
are disjoint, duplicate-free and acyclic, no numbering key is empty, and
the children of a numbered non-directory all carry a numbering key. -/
def invAll (s : EngineState) : Prop :=
  (∀ k, adjOk s (childrenOf s k)) ∧
  (∀ k, tieStab s (childrenOf s k)) ∧
  (∀ k j x, x ∈ childrenOf s k → x ∈ childrenOf s j → k = j) ∧
  (∀ k, (childrenOf s k).Nodup) ∧
  (∀ k, k ∉ childrenOf s k) ∧
  (∀ k, (getU s k).numbering ≠ some ([] : List Nat)) ∧
  (∀ k, (getU s k).fileExtension ≠ DIR → (getU s k).numbering ≠ none →
    ∀ m ∈ childrenOf s k, (getU s m).numbering ≠ none)

/-- The work-queue invariant of the promotion loop: the queue holds no
owner twice, every queued owner has a children list, and the members of
every queued group that are not directories are still childless (their
group, if any, will be created only when they are scanned). -/
def queueProp (s : EngineState) (q : List Nat) : Prop :=
  q.Nodup ∧
  (∀ o ∈ q, (getU s o).children ≠ none) ∧
  (∀ o ∈ q, ∀ m ∈ childrenOf s o,
    (getU s m).fileExtension ≠ DIR → (getU s m).children = none)

/-- Groups of owners that are directories or carry no numbering key only
ever lose members during promotion: every member of such an owner's
children list already belongs to the reference list `Init` of that owner
(instantiated with the pre-finalisation groups).  Promotion appends only
to numbered non-directories, so those owners' groups shrink memberwise. -/
def shrinkTo (Init : Nat → List Nat) (s : EngineState) : Prop :=
  ∀ k, (getU s k).fileExtension = DIR ∨ (getU s k).numbering = none →
    ∀ m ∈ childrenOf s k, m ∈ Init k

/-- The scan-position invariant of one group scan: every group member at
or beyond the scan index that is not a directory is still childless. -/
def sclA (s : EngineState) (owner i : Nat) : Prop :=
  ∀ j, i ≤ j → j < (childrenOf s owner).length →
    (getU s ((childrenOf s owner).getD j 0)).fileExtension ≠ DIR →
    (getU s ((childrenOf s owner).getD j 0)).children = none

/-- The promotion-target invariant of one group scan: when the unit left
of the scan index is a numbered non-directory that already has a children
list, that list is non-empty and its last element compares no greater
than the unit at the scan index, with ties ordered by arena id. -/
def sclB (s : EngineState) (owner i : Nat) : Prop :=
  0 < i → i < (childrenOf s owner).length →
    (getU s ((childrenOf s owner).getD (i - 1) 0)).fileExtension ≠ DIR →
    (getU s ((childrenOf s owner).getD (i - 1) 0)).numbering ≠ none →
    ∀ L, (getU s ((childrenOf s owner).getD (i - 1) 0)).children = some L →
      L ≠ [] ∧
      0 ≤ multiPartComparison (getU s ((childrenOf s owner).getD i 0))
        (getU s (L.getLastD 0)) ∧
      (multiPartComparison (getU s (L.getLastD 0))
          (getU s ((childrenOf s owner).getD i 0)) = 0 →
        L.getLastD 0 < (childrenOf s owner).getD i 0)

instance : Inhabited EngineState := ⟨mkEngine false []⟩

/-- Unwrap a successful engine operation (all concrete runs below
succeed, which the accompanying theorems verify by computation). -/
def runOk : Except EngineError EngineState → EngineState
  | .ok s => s
  | .error _ => default

/-- The walk of the claim about transitive promotion: a root and four
sibling files named `"1 A"`, `"1.1 B"`, `"1.1.1 C"`, `"2 D"` inserted
under it, in visitation order. -/
def c1Pre : EngineState :=
  runOk (do
    let s := mkEngine false []
    let s ← addRootToIndex s (sl "/r") (sl "r") 0 0
    let s ← addFileToIndex s (sl "/r/1 A.txt") (sl "1 A") (sl "txt") 0 0 none
    let s ← addFileToIndex s (sl "/r/1.1 B.txt") (sl "1.1 B") (sl "txt") 0 0 none
    let s ← addFileToIndex s (sl "/r/1.1.1 C.txt") (sl "1.1.1 C") (sl "txt") 0 0 none
    addFileToIndex s (sl "/r/2 D.txt") (sl "2 D") (sl "txt") 0 0 none)

/-- A root with three sibling files whose numbering keys are `[2]`, none,
and `[1]`, in visitation order — the mixed group on which the all-pairs
ordering claim fails. -/
def c2Pre : EngineState :=
  runOk (do
    let s := mkEngine false []
    let s ← addRootToIndex s (sl "/r") (sl "r") 0 0
    let s ← addFileToIndex s (sl "/r/2 A.txt") (sl "2 A") (sl "txt") 0 0 none
    let s ← addFileToIndex s (sl "/r/B.txt") (sl "B") (sl "txt") 0 0 none
    addFileToIndex s (sl "/r/1 C.txt") (sl "1 C") (sl "txt") 0 0 none)

/-- The walk of the exclusion example: a root `root`, its subdirectory
`root/assets`, and a compiled document `root/doc.txt`. -/
def c5Pre : EngineState :=
  runOk (do
    let s := mkEngine false []
    let s ← addRootToIndex s (sl "root") (sl "root") 0 0
    let s ← addDirectoryToIndex s (sl "root/assets") (sl "assets") 0 0
    addFileToIndex s (sl "root/doc.txt") (sl "doc") (sl "txt") 0 0 (some (sl "My Doc")))

/-- The rendering example: a root `/r`, a directory `/r/X` holding both a
compiled document `/r/X/f.txt` and a skipped asset (so `/r/X` ends up
excluded), and a sibling document `/r/g.txt`; finalised with the asset
among the skipped paths. -/
def c7State : EngineState :=
  buildIndex
    (runOk (do
      let s := mkEngine false []
      let s ← addRootToIndex s (sl "/r") (sl "r") 0 0
      let s ← addDirectoryToIndex s (sl "/r/X") (sl "X") 0 0
      let s ← addFileToIndex s (sl "/r/X/f.txt") (sl "f") (sl "txt") 0 0 (some (sl "My File"))
      addFileToIndex s (sl "/r/g.txt") (sl "g") (sl "txt") 0 0 (some (sl "Other Doc"))))
    [sl "/r/X/img.png"]

/-- The proper directory-ancestor chain of a path that lies strictly
below the given root: repeatedly apply `Path.dirname`, stopping before
the root folder path (the relation the exclusion claim quantifies over;
one fuel unit per path character always suffices to reach the root when
the root is an ancestor at all). -/
def ancChainBelow (rootFolderPath : List Char) : Nat → List Char → List (List Char)
  | 0, _ => []
  | fuel + 1, q =>
    let q1 := jsDirname q
    if q1 = rootFolderPath then []
    else q1 :: ancChainBelow rootFolderPath fuel q1

/-- The observation of the unit arena used by the exclusion claim: each
unit's path together with its exclusion mark, in arena order. -/
def unitsMF (s : EngineState) : List (List Char × Bool) :=
  s.units.map (fun u => (u.filePath, u.mustExclude))

/-! ## Structural lemmas: the finalisation phases only rewrite `units`
(and `foldersToExclude`), never the seal flag or the configuration. -/

theorem applyExclusions_shape (s : EngineState) (sp : List (List Char)) :
    ∃ us fs, applyExclusions s sp = { s with units := us, foldersToExclude := fs } := by
  unfold applyExclusions
  by_cases h : sp.isEmpty
  · exact ⟨s.units, s.foldersToExclude, by simp [h]⟩
  · simp only [h, Bool.false_eq_true, if_false]
    cases hh : s.units.head? with
    | none => exact ⟨s.units, s.foldersToExclude, by simp⟩
    | some r =>
      set F := sp.foldl (fun acc p => collectAncLoop r.filePath (p.length + 1) p acc)
        s.foldersToExclude with hF
      by_cases hf : F.isEmpty
      · exact ⟨s.units, F, by simp [hf]⟩
      · exact ⟨s.units.map
          (fun u => if F.contains u.filePath then { u with mustExclude := true } else u),
          F, by simp [hf]⟩

theorem sortOwner_shape (s : EngineState) (o : Nat) :
    ∃ us, sortOwner s o = { s with units := us } := by
  unfold sortOwner
  cases h : (getU s o).children with
  | none => exact ⟨s.units, by simp [h]⟩
  | some ids =>
    exact ⟨s.units.set o { getU s o with
        children := some (jsSort (fun i j => multiPartComparison (getU s i) (getU s j)) ids) },
      by simp [h, setChildren, setU]⟩

theorem foldl_sortOwner_shape (gs : List Nat) (s : EngineState) :
    ∃ us, List.foldl sortOwner s gs = { s with units := us } := by
  induction gs generalizing s with
  | nil => exact ⟨s.units, rfl⟩
  | cons g gs ih =>
    obtain ⟨us1, h1⟩ := sortOwner_shape s g
    obtain ⟨us2, h2⟩ := ih (sortOwner s g)
    refine ⟨us2, ?_⟩
    rw [List.foldl_cons, h2, h1]

theorem sortGroups_shape (s : EngineState) :
    ∃ us, sortGroups s = { s with units := us } := by
  unfold sortGroups
  exact foldl_sortOwner_shape s.rawGroups s

theorem scanGroup_shape (o : Nat) :
    ∀ (fuel : Nat) (s : EngineState) (i : Nat) (q : List Nat),
      ∃ us, (scanGroup s o i fuel q).1 = { s with units := us } := by
  intro fuel
  induction fuel with
  | zero => intro s i q; exact ⟨s.units, rfl⟩
  | succ fuel ih =>
    intro s i q
    rw [scanGroup]
    dsimp only
    split
    · split
      · split
        · obtain ⟨us, h⟩ := ih _ i _
          refine ⟨us, ?_⟩
          rw [h]
          split <;> rfl
        · obtain ⟨us, h⟩ := ih s (i + 1) q
          exact ⟨us, h⟩
      · obtain ⟨us, h⟩ := ih s (i + 1) q
        exact ⟨us, h⟩
    · exact ⟨s.units, rfl⟩

theorem promoteLoop_shape :
    ∀ (fuel : Nat) (s : EngineState) (q : List Nat),
      ∃ us, (promoteLoop s q fuel).1 = { s with units := us } := by
  intro fuel
  induction fuel with
  | zero => intro s q; cases q <;> exact ⟨s.units, rfl⟩
  | succ fuel ih =>
    intro s q
    cases q with
    | nil => exact ⟨s.units, rfl⟩
    | cons owner rest =>
      rw [promoteLoop]
      obtain ⟨us1, h1⟩ := scanGroup_shape owner (scanFuel s owner) s 0 rest
      obtain ⟨us2, h2⟩ := ih (scanGroup s owner 0 (scanFuel s owner) rest).1
        (scanGroup s owner 0 (scanFuel s owner) rest).2
      refine ⟨us2, ?_⟩
      dsimp only
      rw [h2, h1]

theorem buildIndex_shape (s : EngineState) (sp : List (List Char)) :
    ∃ us fs rg, buildIndex s sp =
      { s with isIndexSealed := true, units := us, foldersToExclude := fs, rawGroups := rg } := by
  simp only [buildIndex]
  obtain ⟨us1, fs1, h1⟩ := applyExclusions_shape { s with isIndexSealed := true } sp
  rw [h1]
  set s2 : EngineState :=
    { s with isIndexSealed := true, units := us1, foldersToExclude := fs1 } with hs2
  obtain ⟨us2, h2⟩ := sortGroups_shape s2
  rw [h2]
  set s3 : EngineState := { s2 with units := us2 } with hs3
  obtain ⟨us3, h3⟩ := promoteLoop_shape (s3.rawGroups.length + s3.units.length + 1)
    { s3 with rawGroups := [] } s3.rawGroups
  rw [h3]
  exact ⟨us3, fs1, _, rfl⟩

theorem buildIndex_sealed (s : EngineState) (sp : List (List Char)) :
    (buildIndex s sp).isIndexSealed = true := by
  obtain ⟨us, fs, rg, h⟩ := buildIndex_shape s sp
  rw [h]

/-- C6: every insertion operation called on a state on which `buildIndex`
has run fails with the seal error (`IndexSealedError`); in this functional
model the erroring call returns no new state, so registry and tree are
untouched — matching the source, where the throw is the first statement
of each operation, before any mutation. -/
theorem C6_insertions_after_seal_fail (s : EngineState) (sp : List (List Char))
    (rootPath rootName dirPath dirName filePath fileName fileExtension : List Char)
    (ct mt : Nat) (header : Option (List Char)) :
    addRootToIndex (buildIndex s sp) rootPath rootName ct mt = .error .indexSealed ∧
    addDirectoryToIndex (buildIndex s sp) dirPath dirName ct mt = .error .indexSealed ∧
    addFileToIndex (buildIndex s sp) filePath fileName fileExtension ct mt header =
      .error .indexSealed := by
  have h := buildIndex_sealed s sp
  refine ⟨?_, ?_, ?_⟩ <;>
    simp [addRootToIndex, addDirectoryToIndex, addFileToIndex, h]

/-! ## C3: the comparator agrees with its specification -/

theorem find?_cons_eq {α : Type} (p : α → Bool) (a : α) (l : List α) :
    List.find? p (a :: l) = if p a then some a else List.find? p l := by
  by_cases h : p a
  · simp [List.find?_cons_of_pos, h]
  · simp [List.find?_cons_of_neg, h]

theorem padTo_cons (n : Nat) (x : Nat) (xs : List Nat) :
    padTo (n + 1) (x :: xs) = x :: padTo n xs := by
  simp [padTo, List.replicate]

theorem padTo_nil_succ (n : Nat) :
    padTo (n + 1) ([] : List Nat) = 0 :: padTo n [] := by
  simp [padTo, List.replicate]

theorem padTo_self (l : List Nat) : padTo l.length l = l := by
  simp [padTo]

theorem segDeltaB_find (bs : List Nat) :
    ((List.zipWith (fun (x y : Nat) => (x : Int) - (y : Int))
        (padTo bs.length []) bs).find? (fun d => decide (d ≠ 0))) =
    (if segDeltaB bs = 0 then none else some (segDeltaB bs)) := by
  induction bs with
  | nil => simp [segDeltaB, padTo]
  | cons y ys ih =>
    rw [show (y :: ys).length = ys.length + 1 from rfl, padTo_nil_succ,
      List.zipWith_cons_cons, find?_cons_eq]
    by_cases hy : y = 0
    · subst hy
      simpa [segDeltaB] using ih
    · have h1 : -(y : Int) ≠ 0 := by
        simp only [neg_ne_zero]
        exact_mod_cast hy
      simp [segDeltaB, hy, h1]

theorem segDelta_find (a b : List Nat) :
    ((List.zipWith (fun (x y : Nat) => (x : Int) - (y : Int))
        (padTo (max a.length b.length) a) (padTo (max a.length b.length) b)).find?
      (fun d => decide (d ≠ 0))) =
    (if segDelta a b = 0 then none else some (segDelta a b)) := by
  induction a generalizing b with
  | nil =>
    have hmax : max (List.length ([] : List Nat)) b.length = b.length := by simp
    rw [hmax, padTo_self]
    exact segDeltaB_find b
  | cons x xs iha =>
    cases b with
    | nil =>
      have hmax : max (x :: xs).length (List.length ([] : List Nat)) = xs.length + 1 := by
        simp
      rw [hmax, padTo_nil_succ, padTo_cons, List.zipWith_cons_cons, find?_cons_eq]
      have hxs := iha ([] : List Nat)
      have hmax2 : max xs.length (List.length ([] : List Nat)) = xs.length := by simp
      rw [hmax2] at hxs
      by_cases hx : x = 0
      · subst hx
        simpa [segDelta] using hxs
      · have h1 : (x : Int) - ((0 : Nat) : Int) ≠ 0 := by
          simp only [Nat.cast_zero, sub_zero]
          exact_mod_cast hx
        have h2 : (x : Int) ≠ 0 := by exact_mod_cast hx
        simp [segDelta, h1, h2]
    | cons y ys =>
      have hmax : max (x :: xs).length (y :: ys).length = max xs.length ys.length + 1 := by
        simp [Nat.succ_max_succ]
      rw [hmax, padTo_cons, padTo_cons, List.zipWith_cons_cons, find?_cons_eq]
      by_cases hxy : (x : Int) - (y : Int) = 0
      · simpa [segDelta, hxy] using iha ys
      · simp [segDelta, hxy]

/-- C3: `_multiPartComparison` returns 0 whenever either numbering is null
or empty, and otherwise implements exactly the specification's padded
element-wise comparison with the longer-signature tie-break
(`cmpNumberingSpec`); in particular `compare([1,0],[1,0,0]) < 0`,
`compare([2],[1,9]) > 0` and `compare(null, x) = compare(x, null) = 0`. -/
theorem C3_compare_matches_spec :
    (∀ na nb, cmpNumbering na nb = cmpNumberingSpec na nb) ∧
    cmpNumbering (some [1, 0]) (some [1, 0, 0]) < 0 ∧
    cmpNumbering (some [2]) (some [1, 9]) > 0 ∧
    (∀ nb, cmpNumbering none nb = 0) ∧
    (∀ na, cmpNumbering na none = 0) := by
  refine ⟨?_, by decide, by decide, fun nb => rfl, ?_⟩
  · intro na nb
    cases na with
    | none => cases nb <;> rfl
    | some a =>
      cases nb with
      | none =>
        by_cases h : a.length = 0
        · simp [cmpNumbering, cmpNumberingSpec, h]
        · simp [cmpNumbering, cmpNumberingSpec, h]
      | some b =>
        by_cases ha : a.length = 0
        · have : a = [] := List.length_eq_zero.mp ha
          subst this
          simp [cmpNumbering, cmpNumberingSpec]
        · by_cases hb : b.length = 0
          · have : b = [] := List.length_eq_zero.mp hb
            subst this
            simp [cmpNumbering, cmpNumberingSpec, ha]
          · have hae : a.isEmpty = false := by
              cases a with
              | nil => simp at ha
              | cons _ _ => rfl
            have hbe : b.isEmpty = false := by
              cases b with
              | nil => simp at hb
              | cons _ _ => rfl
            simp only [cmpNumbering, cmpNumberingSpec, ha, hb, hae, hbe, if_false,
              Bool.or_self, Bool.false_eq_true]
            rw [segDelta_find a b]
            by_cases hd : segDelta a b = 0 <;> simp [hd]
  · intro na
    cases na with
    | none => rfl
    | some a =>
      by_cases h : a.length = 0 <;> simp [cmpNumbering, h]

/-! ## C4: numbering extraction agrees with its specification -/

theorem patChar_classes :
    (fun c => c.isDigit || !(c.isAlphanum) || c = '_') = numPatChar := by
  funext c
  by_cases h3 : c = '_' <;>
    cases h1 : c.isAlpha <;> cases h2 : c.isDigit <;>
      simp [numPatChar, isWordChar, Char.isAlphanum, h1, h2, h3]

theorem keepChar_classes :
    (fun c => isWordChar c && c ≠ '_') = (fun c => !(numSepChar c)) := by
  funext c
  by_cases h3 : c = '_' <;> cases h1 : isWordChar c <;> simp [numSepChar, h1, h3]

/-- C4: `_extractNumbering` behaves exactly as the specification describes
(`extractNumberingSpec`): it scans only a leading run of digits,
non-alphanumeric punctuation and underscores, splits it into tokens on
non-word-or-underscore boundaries, strips leading zeros retaining at
least one digit, and returns null when no leading run exists or no token
survives; in particular `extract("007 - Intro") = [7]`,
`extract("1.02.3 Title") = [1,2,3]` and `extract("Intro") = null`. -/
theorem C4_extract_matches_spec :
    (∀ t, extractNumbering t = extractNumberingSpec t) ∧
    extractNumbering (sl "007 - Intro") = some [7] ∧
    extractNumbering (sl "1.02.3 Title") = some [1, 2, 3] ∧
    extractNumbering (sl "Intro") = none := by
  refine ⟨?_, by decide, by decide, by decide⟩
  intro t
  simp only [extractNumbering, extractNumberingSpec, patChar_classes, keepChar_classes]
  by_cases he : (jsTrim t).isEmpty
  · have : jsTrim t = [] := by
      cases h : jsTrim t
      · rfl
      · rw [h] at he; simp at he
    rw [this]
    simp [chunksBy]
  · simp only [he, Bool.false_eq_true, if_false]
    by_cases hr : (List.takeWhile numPatChar (jsTrim t)).isEmpty
    · have hrn : List.takeWhile numPatChar (jsTrim t) = [] := by
        cases h : List.takeWhile numPatChar (jsTrim t)
        · rfl
        · rw [h] at hr; simp at hr
      rw [hrn]
      simp [chunksBy]
    · simp only [hr, Bool.false_eq_true, if_false]

/-! ## C8: blank labels -/

/-- C8 counterexample: for the whitespace-only label `" "` the function
returns the label as given — `" "` — and not the trimmed label `""`
that the claim announces. -/
theorem C8_counterexample :
    tidyUpLabel [] (some [' ']) true = some [' '] ∧
    jsTrim [' '] = [] ∧
    tidyUpLabel [] (some [' ']) true ≠ some (jsTrim [' ']) := by
  refine ⟨by decide, by decide, by decide⟩

/-- C8 (amended): for every blank input label (null, empty, or whitespace
only) `tidyUpLabel` returns the original label unchanged — not trimmed —
and for non-blank input it returns the transformed label (the result of
the transformation pipeline on the trimmed label). -/
theorem C8_blank_behavior (custom : List (List Char)) (label : Option (List Char))
    (rn : Bool) :
    (jsTrim (label.getD []) = [] → tidyUpLabel custom label rn = label) ∧
    (jsTrim (label.getD []) ≠ [] →
      tidyUpLabel custom label rn =
        some (tidyUpLabelCore custom (jsTrim (label.getD [])) rn)) := by
  constructor
  · intro h
    simp [tidyUpLabel, h]
  · intro h
    have : (jsTrim (label.getD [])).isEmpty = false := by
      cases hc : jsTrim (label.getD [])
      · exact absurd hc h
      · rfl
    simp [tidyUpLabel, this]

/-- Witness for `C8_blank_behavior` at the blank label `" "` and the
non-blank label `"x"`. -/
theorem C8_blank_behavior_witness :
    tidyUpLabel [] (some [' ']) true = some [' '] ∧
    tidyUpLabel [] (some ['x']) true = some (tidyUpLabelCore [] (jsTrim ['x']) true) := by
  constructor
  · exact (C8_blank_behavior [] (some [' ']) true).1 (by decide)
  · exact (C8_blank_behavior [] (some ['x']) true).2 (by decide)

/-! ## String toolkit for the link-building claims -/

theorem mem_dropWhile {p : Char → Bool} {l : List Char} {c : Char}
    (h : c ∈ l.dropWhile p) : c ∈ l :=
  (List.dropWhile_sublist p).subset h

theorem mem_takeWhile {p : Char → Bool} {l : List Char} {c : Char}
    (h : c ∈ l.takeWhile p) : c ∈ l :=
  (List.takeWhile_sublist p).subset h

theorem mem_jsTrim {l : List Char} {c : Char} (h : c ∈ jsTrim l) : c ∈ l := by
  unfold jsTrim at h
  rw [List.mem_reverse] at h
  have h2 := mem_dropWhile h
  rw [List.mem_reverse] at h2
  exact mem_dropWhile h2

theorem mem_leftStrip {l : List Char} {c : Char} (h : c ∈ leftStrip l) : c ∈ l :=
  mem_dropWhile h

theorem mem_rightStrip {l : List Char} {c : Char} (h : c ∈ rightStrip l) : c ∈ l := by
  unfold rightStrip at h
  rw [List.mem_reverse] at h
  have h2 := mem_dropWhile h
  rwa [List.mem_reverse] at h2

theorem head_dropWhile_false {p : Char → Bool} :
    ∀ (l : List Char) (c : Char), (l.dropWhile p).head? = some c → p c = false := by
  intro l
  induction l with
  | nil => intro c h; simp at h
  | cons x xs ih =>
    intro c h
    by_cases hp : p x
    · rw [List.dropWhile_cons_of_pos hp] at h
      exact ih c h
    · rw [List.dropWhile_cons_of_neg hp] at h
      simp only [List.head?_cons, Option.some.injEq] at h
      subst h
      exact Bool.eq_false_iff.mpr hp

theorem last_rightStrip_false {l : List Char} {c : Char}
    (h : (rightStrip l).getLast? = some c) : isSepBS c = false := by
  unfold rightStrip at h
  rw [List.getLast?_reverse] at h
  exact head_dropWhile_false _ c h

theorem getLast?_cons_of_ne_nil {α : Type} {a : α} {l : List α} (h : l ≠ []) :
    (a :: l).getLast? = l.getLast? := by
  cases l with
  | nil => exact absurd rfl h
  | cons b t => rfl

/-- One-step characterisation of `replaceRuns`. -/
theorem replaceRuns_cons (p : Char → Bool) (r : Char) (c : Char) (t : List Char) :
    replaceRuns p r (c :: t) =
      if p c then
        (if (match t with | [] => false | d :: _ => p d) then replaceRuns p r t
         else r :: replaceRuns p r t)
      else c :: replaceRuns p r t := by
  have haux : ∀ (u : List Char),
      (u.foldr
        (fun c st =>
          if p c then (if st.2 then st else (r :: st.1, true))
          else (c :: st.1, false))
        (([] : List Char), false)).2 =
      (match u with | [] => false | d :: _ => p d) := by
    intro u
    cases u with
    | nil => rfl
    | cons d v =>
      by_cases hd : p d
      · simp only [List.foldr_cons, hd, if_true]
        split
        · assumption
        · rfl
      · simp only [List.foldr_cons, hd, if_false, Bool.false_eq_true]
  unfold replaceRuns
  rw [List.foldr_cons]
  by_cases hc : p c
  · rw [haux t]
    cases t with
    | nil => simp [hc]
    | cons d v =>
      by_cases hd : p d
      · simp [hc, hd]
      · simp [hc, hd]
  · simp [hc]

theorem replaceRuns_id {p : Char → Bool} {r : Char} {l : List Char}
    (h : ∀ c ∈ l, p c = false) : replaceRuns p r l = l := by
  induction l with
  | nil => rfl
  | cons c t ih =>
    rw [replaceRuns_cons]
    have hc : p c = false := h c (List.mem_cons_self c t)
    rw [hc]
    simp only [Bool.false_eq_true, if_false]
    rw [ih (fun d hd => h d (List.mem_cons_of_mem c hd))]

theorem mem_replaceRuns {p : Char → Bool} {r : Char} :
    ∀ {l : List Char} {c' : Char}, c' ∈ replaceRuns p r l →
      c' = r ∨ (c' ∈ l ∧ p c' = false) := by
  intro l
  induction l with
  | nil => intro c' h; simp [replaceRuns] at h
  | cons c t ih =>
    intro c' h
    rw [replaceRuns_cons] at h
    by_cases hc : p c
    · rw [if_pos hc] at h
      split at h
      · rcases ih h with h1 | ⟨h2, h3⟩
        · exact Or.inl h1
        · exact Or.inr ⟨List.mem_cons_of_mem c h2, h3⟩
      · rcases List.mem_cons.mp h with h1 | h1
        · exact Or.inl h1
        · rcases ih h1 with h2 | ⟨h3, h4⟩
          · exact Or.inl h2
          · exact Or.inr ⟨List.mem_cons_of_mem c h3, h4⟩
    · rw [if_neg hc] at h
      rcases List.mem_cons.mp h with h1 | h1
      · subst h1
        exact Or.inr ⟨List.mem_cons_self c' t, Bool.eq_false_iff.mpr hc⟩
      · rcases ih h1 with h2 | ⟨h3, h4⟩
        · exact Or.inl h2
        · exact Or.inr ⟨List.mem_cons_of_mem c h3, h4⟩

theorem replaceRuns_last {p : Char → Bool} {r : Char} :
    ∀ {l : List Char}, l ≠ [] → (∀ c, l.getLast? = some c → p c = false) →
      replaceRuns p r l ≠ [] ∧ (replaceRuns p r l).getLast? = l.getLast? := by
  intro l
  induction l with
  | nil => intro h; exact absurd rfl h
  | cons c t ih =>
    intro _ hl
    cases t with
    | nil =>
      have hc : p c = false := hl c rfl
      rw [replaceRuns_cons, hc]
      simp [replaceRuns]
    | cons d v =>
      have htne : (d :: v) ≠ ([] : List Char) := by simp
      have hlast : (c :: d :: v).getLast? = (d :: v).getLast? := rfl
      have hl' : ∀ e, (d :: v).getLast? = some e → p e = false := by
        intro e he
        exact hl e (by rw [hlast]; exact he)
      obtain ⟨hne, hlast2⟩ := ih htne hl'
      rw [replaceRuns_cons]
      by_cases hc : p c
      · rw [if_pos hc]
        split
        · exact ⟨hne, by rw [hlast2, hlast]⟩
        · refine ⟨by simp, ?_⟩
          rw [getLast?_cons_of_ne_nil hne, hlast2, hlast]
      · rw [if_neg hc]
        refine ⟨by simp, ?_⟩
        rw [getLast?_cons_of_ne_nil hne, hlast2, hlast]

theorem bsToSlash_id {l : List Char} (h : '\\' ∉ l) : bsToSlash l = l := by
  unfold bsToSlash
  refine replaceRuns_id ?_
  intro c hc
  by_cases he : c = '\\'
  · exact absurd (he ▸ hc) h
  · simp [he]

theorem mem_bsToSlash {l : List Char} {c : Char} (h : c ∈ bsToSlash l) :
    c = '/' ∨ c ∈ l := by
  rcases mem_replaceRuns h with h1 | ⟨h2, _⟩
  · exact Or.inl h1
  · exact Or.inr h2

theorem intercalate_single (s : List Char) (x : List Char) :
    List.intercalate s [x] = x := by
  simp [List.intercalate]

theorem jsBasename_structure (p : List Char) :
    jsBasename p = sl "/" ∨ '/' ∉ jsBasename p := by
  unfold jsBasename
  by_cases h : p.reverse.dropWhile isSep = []
  · rw [if_pos h]
    by_cases hp : p = []
    · right; simp [hp]
    · left; simp [hp]
  · rw [if_neg h]
    right
    intro hmem
    rw [List.mem_reverse] at hmem
    have := List.mem_takeWhile_imp hmem
    simp [isSep] at this

theorem mem_jsBasename {p : List Char} {c : Char} (h : c ∈ jsBasename p) :
    c ∈ p ∨ c = '/' := by
  unfold jsBasename at h
  by_cases he : p.reverse.dropWhile isSep = []
  · rw [if_pos he] at h
    by_cases hp : p = []
    · rw [if_pos hp] at h
      simp at h
    · rw [if_neg hp] at h
      right
      simpa [sl] using h
  · rw [if_neg he] at h
    left
    rw [List.mem_reverse] at h
    have h2 := mem_takeWhile h
    have h3 := mem_dropWhile h2
    rwa [List.mem_reverse] at h3

theorem mem_jsBasenameSuffix {p suf : List Char} {c : Char}
    (h : c ∈ jsBasenameSuffix p suf) : c ∈ jsBasename p := by
  unfold jsBasenameSuffix at h
  dsimp only at h
  split at h
  · exact (List.take_sublist _ _).subset h
  · exact h

theorem jsBasenameSuffix_structure (p suf : List Char) :
    jsBasenameSuffix p suf = sl "/" ∨ '/' ∉ jsBasenameSuffix p suf := by
  rcases jsBasename_structure p with hb | hb
  · unfold jsBasenameSuffix
    rw [hb]
    dsimp only
    split
    · right
      intro hmem
      have := (List.take_sublist _ (sl "/")).subset hmem
      rename_i hcond
      obtain ⟨h1, h2, h3⟩ := hcond
      have hlen : suf.length ≥ 1 := by
        cases suf with
        | nil => exact absurd rfl h1
        | cons _ _ => simp
      have : (sl "/").length - suf.length = 0 := by
        simp [sl]
        omega
      rw [this] at hmem
      simp at hmem
    · left; rfl
  · right
    intro hmem
    exact hb (mem_jsBasenameSuffix hmem)

theorem getFileName_false (p : List Char) : getFileName p false = jsBasename p := by
  unfold getFileName jsBasenameSuffix
  simp

/-- Structure of `changeFileExtension (getFileName p false) e` for a
slash-free extension: either slash-free, or a single leading slash
followed by a slash-free tail. -/
theorem changeFileExtension_structure (q e : List Char) (he : '/' ∉ e) :
    '/' ∉ changeFileExtension q e ∨
    (∃ t, changeFileExtension q e = '/' :: t ∧ '/' ∉ t) := by
  have hgf : getFileName q true = jsBasenameSuffix q (jsExtname q) := by
    unfold getFileName
    simp
  set tl : List Char := if e ≠ [] then '.' :: e else [] with htl
  have htlf : '/' ∉ tl := by
    rw [htl]
    split
    · intro hmem
      rcases List.mem_cons.mp hmem with h1 | h1
      · exact absurd h1.symm (by decide)
      · exact he h1
    · simp
  have hsplit : changeFileExtension q e = getFileName q true ++ tl := by
    rw [htl]
    rfl
  rcases jsBasenameSuffix_structure q (jsExtname q) with hb | hb
  · rw [← hgf] at hb
    right
    refine ⟨tl, ?_, htlf⟩
    rw [hsplit, hb]
    rfl
  · rw [← hgf] at hb
    left
    intro hmem
    rw [hsplit] at hmem
    rcases List.mem_append.mp hmem with h1 | h1
    · exact hb h1
    · exact htlf h1

theorem dropWhile_append_singleton {p : Char → Bool} {c : Char} (hc : p c = false) :
    ∀ (xs : List Char), (xs ++ [c]).dropWhile p = xs.dropWhile p ++ [c] := by
  intro xs
  induction xs with
  | nil => simp [List.dropWhile, hc]
  | cons x t ih =>
    by_cases hx : p x
    · rw [List.cons_append, List.dropWhile_cons_of_pos hx, List.dropWhile_cons_of_pos hx, ih]
    · rw [List.cons_append, List.dropWhile_cons_of_neg hx, List.dropWhile_cons_of_neg hx,
        List.cons_append]

theorem jsTrim_cons_not_space {c : Char} (hc : jsIsSpace c = false) (t : List Char) :
    jsTrim (c :: t) = c :: (t.reverse.dropWhile jsIsSpace).reverse := by
  unfold jsTrim
  rw [List.dropWhile_cons_of_neg (by simp [hc]), List.reverse_cons,
      dropWhile_append_singleton hc, List.reverse_append]
  rfl

theorem mem_of_head?_eq {α : Type} {l : List α} {a : α} (h : l.head? = some a) : a ∈ l := by
  cases l with
  | nil => simp at h
  | cons x t =>
    simp only [List.head?_cons, Option.some.injEq] at h
    subst h
    exact List.mem_cons_self _ _

theorem getFileName_true (q : List Char) :
    getFileName q true = jsBasenameSuffix q (jsExtname q) := by
  unfold getFileName
  simp

theorem mem_changeFileExtension_chain {p e : List Char} {c : Char}
    (h : c ∈ changeFileExtension (getFileName p false) e) :
    c ∈ p ∨ c = '/' ∨ c = '.' ∨ c ∈ e := by
  have hsplit : changeFileExtension (getFileName p false) e =
      getFileName (getFileName p false) true ++ (if e ≠ [] then '.' :: e else []) := rfl
  rw [hsplit] at h
  rcases List.mem_append.mp h with h1 | h1
  · rw [getFileName_true] at h1
    have h2 := mem_jsBasenameSuffix h1
    rcases mem_jsBasename h2 with h3 | h3
    · rw [getFileName_false] at h3
      rcases mem_jsBasename h3 with h4 | h4
      · exact Or.inl h4
      · exact Or.inr (Or.inl h4)
    · exact Or.inr (Or.inl h3)
  · split at h1
    · rcases List.mem_cons.mp h1 with h2 | h2
      · exact Or.inr (Or.inr (Or.inl h2))
      · exact Or.inr (Or.inr (Or.inr h2))
    · simp at h1

theorem mem_cleaned {w : List Char} {c : Char}
    (h : c ∈ rightStrip (leftStrip (jsTrim w))) : c ∈ w :=
  mem_jsTrim (mem_leftStrip (mem_rightStrip h))

theorem cleaned_no_slash (p e : List Char) (he : '/' ∉ e) :
    '/' ∉ rightStrip (leftStrip (jsTrim (changeFileExtension (getFileName p false) e))) := by
  rcases changeFileExtension_structure (getFileName p false) e he with hw | ⟨t, hw, ht⟩
  · intro hmem
    exact hw (mem_cleaned hmem)
  · rw [hw]
    intro hmem
    rw [jsTrim_cons_not_space (by decide)] at hmem
    have hls : leftStrip ('/' :: (t.reverse.dropWhile jsIsSpace).reverse) =
        leftStrip ((t.reverse.dropWhile jsIsSpace).reverse) := by
      unfold leftStrip
      rw [List.dropWhile_cons_of_pos (by decide)]
    rw [hls] at hmem
    have h1 := mem_leftStrip (mem_rightStrip hmem)
    rw [List.mem_reverse] at h1
    have h2 := mem_dropWhile h1
    rw [List.mem_reverse] at h2
    exact ht h2

/-- C9: with `fromPath = toPath`, `_makeRelUrl` emits no separator for the
empty relative segment: the result is just the target's base name with
its extension swapped to the requested type (run through the function's
own trim/edge-separator cleanup, the identity on ordinary names), with no
leading separator and no `"./"` prefix.  `p` and `e` range over
POSIX-style paths and extensions (no backslashes; no slash inside the
extension). -/
theorem C9_self_link (p e : List Char) (he : '/' ∉ e) (heb : '\\' ∉ e)
    (hpb : '\\' ∉ p) :
    makeRelUrl p p e false =
      rightStrip (leftStrip (jsTrim (changeFileExtension (getFileName p false) e))) ∧
    (∀ c, (makeRelUrl p p e false).head? = some c → c ≠ '/' ∧ c ≠ '\\') ∧
    (makeRelUrl p p e false).take 2 ≠ sl "./" := by
  have hbsfree : '\\' ∉
      rightStrip (leftStrip (jsTrim (changeFileExtension (getFileName p false) e))) := by
    intro hmem
    rcases mem_changeFileExtension_chain (mem_cleaned hmem) with h1 | h1 | h1 | h1
    · exact hpb h1
    · exact absurd h1 (by decide)
    · exact absurd h1 (by decide)
    · exact heb h1
  have hslash := cleaned_no_slash p e he
  have heq : makeRelUrl p p e false =
      rightStrip (leftStrip (jsTrim (changeFileExtension (getFileName p false) e))) := by
    have hrel : pathRelative (jsDirname p) (jsDirname p) = [] := by
      unfold pathRelative
      simp
    unfold makeRelUrl
    dsimp only
    rw [hrel]
    have h0 : rightStrip (leftStrip (jsTrim ([] : List Char))) = [] := rfl
    rw [h0]
    simp only [ne_eq, not_true_eq_false, if_false, Bool.false_eq_true]
    rw [intercalate_single]
    exact bsToSlash_id hbsfree
  refine ⟨heq, ?_, ?_⟩
  · intro c hc
    rw [heq] at hc
    have hcm := mem_of_head?_eq hc
    constructor
    · intro hcc
      exact hslash (hcc ▸ hcm)
    · intro hcc
      exact hbsfree (hcc ▸ hcm)
  · intro htake
    have hmem : '/' ∈ (makeRelUrl p p e false).take 2 := by
      rw [htake]
      decide
    have := (List.take_sublist 2 _).subset hmem
    rw [heq] at this
    exact hslash this

/-- Witness for `C9_self_link` at the claim's example
`relativeLink("/a/b/doc.txt", "/a/b/doc.txt", "html") = "doc.html"`. -/
theorem C9_self_link_witness :
    ('/' ∉ sl "html" ∧ '\\' ∉ sl "html" ∧ '\\' ∉ sl "/a/b/doc.txt") ∧
    makeRelUrl (sl "/a/b/doc.txt") (sl "/a/b/doc.txt") (sl "html") false = sl "doc.html" ∧
    makeRelUrl (sl "/a/b/doc.txt") (sl "/a/b/doc.txt") (sl "html") false =
      rightStrip (leftStrip (jsTrim
        (changeFileExtension (getFileName (sl "/a/b/doc.txt") false) (sl "html")))) := by
  refine ⟨⟨by decide, by decide, by decide⟩, by decide, ?_⟩
  exact (C9_self_link (sl "/a/b/doc.txt") (sl "html") (by decide) (by decide) (by decide)).1

theorem makeRelUrl_folders (fromP toP : List Char) :
    makeRelUrl fromP toP [] true =
      bsToSlash (rightStrip (leftStrip (jsTrim
        (pathRelative (jsDirname fromP) (jsDirname toP))))) := by
  unfold makeRelUrl
  dsimp only
  set rp := rightStrip (leftStrip (jsTrim (pathRelative (jsDirname fromP) (jsDirname toP))))
    with hrp
  rw [if_pos (rfl : true = true)]
  by_cases hr : rp = []
  · rw [if_neg (by simpa using hr), hr]
    simp [List.intercalate, bsToSlash, replaceRuns]
  · rw [if_pos (by simpa using hr), intercalate_single]

/-- C10: `getRootDirPathFor` returns either the empty string (in
particular whenever the index is empty) or a non-empty relative path that
ends in exactly one forward slash and contains no backslash; it never
returns a non-empty string without the trailing slash. -/
theorem C10_root_dir_path_shape (s : EngineState) (p : List Char) :
    (s.units.isEmpty = true → getRootDirPathFor s p = []) ∧
    (getRootDirPathFor s p = [] ∨
      ∃ q, getRootDirPathFor s p = q ++ ['/'] ∧ q ≠ [] ∧ q.getLast? ≠ some '/' ∧
        '\\' ∉ getRootDirPathFor s p) := by
  constructor
  · intro hu
    unfold getRootDirPathFor
    rw [if_pos hu]
  · by_cases hu : s.units.isEmpty
    · left
      unfold getRootDirPathFor
      rw [if_pos hu]
    · unfold getRootDirPathFor
      rw [if_neg hu]
      dsimp only
      by_cases hp : makeRelUrl (jsDirname p) (s.units.headD default).filePath [] true = []
      · left
        rw [if_neg (by simpa using hp)]
      · right
        rw [if_pos (by simpa using hp)]
        rw [makeRelUrl_folders] at hp ⊢
        set relPath := rightStrip (leftStrip (jsTrim
          (pathRelative (jsDirname (jsDirname p))
            (jsDirname (s.units.headD default).filePath)))) with hrelp
        have hrelne : relPath ≠ [] := by
          intro h0
          apply hp
          rw [h0]
          rfl
        obtain ⟨c, hc⟩ := Option.isSome_iff_exists.mp (List.getLast?_isSome.mpr hrelne)
        have hcsep : isSepBS c = false := by
          apply last_rightStrip_false (l := leftStrip (jsTrim
            (pathRelative (jsDirname (jsDirname p))
              (jsDirname (s.units.headD default).filePath))))
          rw [← hrelp]
          exact hc
        have hcbs : decide (c = '\\') = false := by
          simp only [isSepBS, Bool.or_eq_false_iff] at hcsep
          exact hcsep.1
        have hlast := replaceRuns_last (p := fun d => decide (d = '\\')) (r := '/')
          hrelne (by
            intro d hd
            rw [hd] at hc
            cases hc
            exact hcbs)
        refine ⟨bsToSlash relPath, rfl, hp, ?_, ?_⟩
        · show (bsToSlash relPath).getLast? ≠ some '/'
          unfold bsToSlash
          rw [hlast.2, hc]
          intro hcc
          cases hcc
          simp [isSepBS] at hcsep
        · intro hmem
          rcases List.mem_append.mp hmem with h1 | h1
          · rcases mem_replaceRuns
              (show ('\\' : Char) ∈ replaceRuns (fun d => decide (d = '\\')) '/' relPath
                from h1) with h3 | ⟨_, h4⟩
            · exact absurd h3 (by decide)
            · rw [decide_eq_false_iff_not] at h4
              exact h4 rfl
          · simp [sl] at h1

/-! ## C5: exclusion propagation -/

theorem getD_map {α β : Type} (f : α → β) :
    ∀ (l : List α) (i : Nat) (d : α), (l.map f).getD i (f d) = f (l.getD i d) := by
  intro l
  induction l with
  | nil => intro i d; rfl
  | cons x t ih =>
    intro i d
    cases i with
    | zero => rfl
    | succ j => simp only [List.map_cons, List.getD_cons_succ]; exact ih j d

theorem set_getD_eq {β : Type} :
    ∀ (l : List β) (i : Nat) (d : β), l.set i (l.getD i d) = l := by
  intro l
  induction l with
  | nil => intro i d; rfl
  | cons x t ih =>
    intro i d
    cases i with
    | zero => rfl
    | succ j => simpa using ih j d

theorem unitsMF_setU (s : EngineState) (i : Nat) (u : CUnit)
    (h1 : u.mustExclude = (getU s i).mustExclude)
    (h2 : u.filePath = (getU s i).filePath) :
    unitsMF (setU s i u) = unitsMF s := by
  unfold unitsMF setU
  show (s.units.set i u).map _ = _
  rw [List.map_set, h1, h2]
  have hpair : ((getU s i).filePath, (getU s i).mustExclude) =
      (s.units.map (fun v => (v.filePath, v.mustExclude))).getD i
        ((default : CUnit).filePath, (default : CUnit).mustExclude) := by
    rw [show (((default : CUnit).filePath, (default : CUnit).mustExclude)) =
      (fun (v : CUnit) => (v.filePath, v.mustExclude)) default from rfl, getD_map]
    rfl
  rw [hpair, set_getD_eq]

theorem unitsMF_setChildren (s : EngineState) (i : Nat) (cs : List Nat) :
    unitsMF (setChildren s i cs) = unitsMF s := by
  unfold setChildren
  exact unitsMF_setU s i _ rfl rfl

theorem unitsMF_sortOwner (s : EngineState) (o : Nat) :
    unitsMF (sortOwner s o) = unitsMF s := by
  unfold sortOwner
  cases h : (getU s o).children with
  | none => rfl
  | some ids => exact unitsMF_setChildren s o _

theorem unitsMF_sortGroups (s : EngineState) :
    unitsMF (sortGroups s) = unitsMF s := by
  unfold sortGroups
  generalize s.rawGroups = gs
  induction gs generalizing s with
  | nil => rfl
  | cons g t ih =>
    rw [List.foldl_cons]
    rw [ih (sortOwner s g), unitsMF_sortOwner]

theorem unitsMF_scanGroup (o : Nat) :
    ∀ (fuel : Nat) (s : EngineState) (i : Nat) (q : List Nat),
      unitsMF (scanGroup s o i fuel q).1 = unitsMF s := by
  intro fuel
  induction fuel with
  | zero => intro s i q; rfl
  | succ fuel ih =>
    intro s i q
    rw [scanGroup]
    dsimp only
    split
    · split
      · split
        · rw [ih]
          set s1 := if (getU s ((((getU s o).children.getD []).getD (i - 1) 0))).children = none
            then setU s _ _ else s with hs1
          rw [unitsMF_setU, unitsMF_setChildren]
          · show unitsMF (if _ then setU s _ _ else s) = unitsMF s
            split
            · rw [unitsMF_setU] <;> rfl
            · rfl
          · rfl
          · rfl
        · exact ih s (i + 1) q
      · exact ih s (i + 1) q
    · rfl

theorem unitsMF_promoteLoop :
    ∀ (fuel : Nat) (s : EngineState) (q : List Nat),
      unitsMF (promoteLoop s q fuel).1 = unitsMF s := by
  intro fuel
  induction fuel with
  | zero => intro s q; cases q <;> rfl
  | succ fuel ih =>
    intro s q
    cases q with
    | nil => rfl
    | cons owner rest =>
      rw [promoteLoop]
      rw [ih, unitsMF_scanGroup]

theorem unitsMF_buildIndex (s : EngineState) (sp : List (List Char)) :
    unitsMF (buildIndex s sp) = unitsMF (applyExclusions { s with isIndexSealed := true } sp) := by
  unfold buildIndex
  dsimp only
  have h1 : ∀ (t : EngineState) (rg : List Nat),
      unitsMF { t with rawGroups := rg } = unitsMF t := fun t rg => rfl
  have h2 : ∀ (t : EngineState) (q : List Nat) (fuel : Nat),
      unitsMF { (promoteLoop t q fuel).1 with rawGroups := (promoteLoop t q fuel).2 } =
        unitsMF (promoteLoop t q fuel).1 := fun t q fuel => rfl
  rw [h2, unitsMF_promoteLoop, h1, unitsMF_sortGroups]

theorem collectAncLoop_mono (root : List Char) :
    ∀ (fuel : Nat) (q : List Char) (acc : List (List Char)) (x : List Char),
      x ∈ acc → x ∈ collectAncLoop root fuel q acc := by
  intro fuel
  induction fuel with
  | zero => intro q acc x hx; exact hx
  | succ fuel ih =>
    intro q acc x hx
    rw [collectAncLoop]
    dsimp only
    split
    · exact hx
    · apply ih
      split
      · exact hx
      · exact List.mem_append_left _ hx

theorem collectAncLoop_complete (root : List Char) :
    ∀ (fuel : Nat) (q : List Char) (acc : List (List Char)),
      ∀ a ∈ ancChainBelow root fuel q, a ∈ collectAncLoop root fuel q acc := by
  intro fuel
  induction fuel with
  | zero => intro q acc a ha; simp [ancChainBelow] at ha
  | succ fuel ih =>
    intro q acc a ha
    rw [ancChainBelow] at ha
    rw [collectAncLoop]
    dsimp only at ha ⊢
    split
    · rename_i hq
      rw [if_pos hq] at ha
      simp at ha
    · rename_i hq
      rw [if_neg hq] at ha
      rcases List.mem_cons.mp ha with h1 | h1
      · subst h1
        apply collectAncLoop_mono
        split
        · rename_i hc
          exact List.mem_of_elem_eq_true hc
        · exact List.mem_append_right _ (List.mem_singleton.mpr rfl)
      · exact ih _ _ a h1

theorem mem_ancChainBelow_ne_root (root : List Char) :
    ∀ (fuel : Nat) (q : List Char) (a : List Char),
      a ∈ ancChainBelow root fuel q → a ≠ root := by
  intro fuel
  induction fuel with
  | zero => intro q a ha; simp [ancChainBelow] at ha
  | succ fuel ih =>
    intro q a ha
    rw [ancChainBelow] at ha
    split at ha
    · simp at ha
    · rename_i hq
      rcases List.mem_cons.mp ha with h1 | h1
      · subst h1; exact hq
      · exact ih _ a h1

theorem collectAncLoop_sound (root : List Char) :
    ∀ (fuel : Nat) (q : List Char) (acc : List (List Char)) (x : List Char),
      x ∈ collectAncLoop root fuel q acc → x ∈ acc ∨ x ≠ root := by
  intro fuel
  induction fuel with
  | zero => intro q acc x hx; exact Or.inl hx
  | succ fuel ih =>
    intro q acc x hx
    rw [collectAncLoop] at hx
    dsimp only at hx
    split at hx
    · exact Or.inl hx
    · rename_i hq
      rcases ih _ _ x hx with h1 | h1
      · revert h1
        split
        · exact Or.inl
        · intro h1
          rcases List.mem_append.mp h1 with h2 | h2
          · exact Or.inl h2
          · right
            rw [List.mem_singleton.mp h2]
            exact hq
      · exact Or.inr h1

theorem exclusionFold_mono (root : List Char) (sp : List (List Char)) :
    ∀ (acc : List (List Char)) (x : List Char), x ∈ acc →
      x ∈ sp.foldl (fun acc p => collectAncLoop root (p.length + 1) p acc) acc := by
  induction sp with
  | nil => intro acc x hx; exact hx
  | cons P t ih =>
    intro acc x hx
    rw [List.foldl_cons]
    exact ih _ x (collectAncLoop_mono root _ P acc x hx)

theorem exclusionFold_complete (root : List Char) (sp : List (List Char)) :
    ∀ (acc : List (List Char)), ∀ P ∈ sp, ∀ a ∈ ancChainBelow root (P.length + 1) P,
      a ∈ sp.foldl (fun acc p => collectAncLoop root (p.length + 1) p acc) acc := by
  induction sp with
  | nil => intro acc P hP; simp at hP
  | cons Q t ih =>
    intro acc P hP a ha
    rw [List.foldl_cons]
    rcases List.mem_cons.mp hP with h1 | h1
    · subst h1
      exact exclusionFold_mono root t _ a (collectAncLoop_complete root _ P acc a ha)
    · exact ih _ P h1 a ha

theorem exclusionFold_root_free (root : List Char) (sp : List (List Char)) :
    ∀ (acc : List (List Char)), root ∉ acc →
      root ∉ sp.foldl (fun acc p => collectAncLoop root (p.length + 1) p acc) acc := by
  induction sp with
  | nil => intro acc h; exact h
  | cons Q t ih =>
    intro acc h
    rw [List.foldl_cons]
    apply ih
    intro hmem
    rcases collectAncLoop_sound root _ Q acc root hmem with h1 | h1
    · exact h h1
    · exact h1 rfl

theorem headD_map_units (us : List CUnit) (hne : us ≠ []) (f : CUnit → CUnit) :
    (us.map f).headD default = f (us.headD default) := by
  cases us with
  | nil => exact absurd rfl hne
  | cons u t => rfl

theorem applyExclusions_marks (s : EngineState) (sp : List (List Char))
    (hne : s.units ≠ []) (hsp : sp ≠ []) :
    (∀ u ∈ (applyExclusions s sp).units,
      u.filePath ∈ sp.foldl
        (fun acc p => collectAncLoop (s.units.headD default).filePath (p.length + 1) p acc)
        s.foldersToExclude →
      u.mustExclude = true) ∧
    ((s.units.headD default).filePath ∉ sp.foldl
        (fun acc p => collectAncLoop (s.units.headD default).filePath (p.length + 1) p acc)
        s.foldersToExclude →
      ((applyExclusions s sp).units.headD default).mustExclude =
        (s.units.headD default).mustExclude) := by
  have hspe : sp.isEmpty = false := by
    cases sp with
    | nil => exact absurd rfl hsp
    | cons _ _ => rfl
  have hh : s.units.head? = some (s.units.headD default) := by
    cases hu : s.units with
    | nil => exact absurd hu hne
    | cons u t => rfl
  unfold applyExclusions
  rw [hspe]
  simp only [Bool.false_eq_true, if_false, hh]
  set F := sp.foldl
    (fun acc p => collectAncLoop (s.units.headD default).filePath (p.length + 1) p acc)
    s.foldersToExclude with hF
  by_cases hfe : F.isEmpty
  · have hFnil : F = [] := by
      cases hFc : F
      · rfl
      · rw [hFc] at hfe; simp at hfe
    constructor
    · intro u hu hmem
      rw [hFnil] at hmem
      simp at hmem
    · intro _
      simp only [hfe, if_true]
  · simp only [hfe, Bool.false_eq_true, if_false]
    constructor
    · intro u hu hmem
      rcases List.mem_map.mp hu with ⟨v, hv, hvu⟩
      by_cases hc : F.contains v.filePath
      · rw [if_pos hc] at hvu
        rw [← hvu]
      · rw [if_neg hc] at hvu
        subst hvu
        exact absurd (List.elem_iff.mpr hmem) hc
    · intro hroot
      rw [headD_map_units s.units hne]
      rw [if_neg (fun hc => hroot (List.mem_of_elem_eq_true hc))]

theorem applyExclusions_length (s : EngineState) (sp : List (List Char)) :
    (applyExclusions s sp).units.length = s.units.length := by
  unfold applyExclusions
  split
  · rfl
  · split
    · rfl
    · dsimp only
      split
      · rfl
      · simp

theorem headMF (t : EngineState) (h : t.units ≠ []) :
    (unitsMF t).headD ((default : CUnit).filePath, (default : CUnit).mustExclude) =
      ((t.units.headD default).filePath, (t.units.headD default).mustExclude) := by
  unfold unitsMF
  cases hu : t.units with
  | nil => exact absurd hu h
  | cons u v => rfl

/-- C5: after `buildIndex(skippedPaths)`, every proper directory ancestor
of every skipped path that lies strictly below the root folder is marked
`excluded = true` on every registered unit carrying that path, and the
root unit's own exclusion mark is left untouched (the ancestor walk stops
before the root, so the root is never collected). -/
theorem C5_exclusion_propagation (s : EngineState) (sp : List (List Char))
    (hne : s.units ≠ [])
    (hroot0 : (s.units.headD default).filePath ∉ s.foldersToExclude) :
    (∀ P ∈ sp, ∀ a ∈ ancChainBelow (s.units.headD default).filePath (P.length + 1) P,
      ∀ u ∈ (buildIndex s sp).units, u.filePath = a → u.mustExclude = true) ∧
    ((buildIndex s sp).units.headD default).mustExclude =
      (s.units.headD default).mustExclude := by
  set s1 : EngineState := { s with isIndexSealed := true } with hs1
  have hs1u : s1.units = s.units := rfl
  have hs1f : s1.foldersToExclude = s.foldersToExclude := rfl
  have hne1 : s1.units ≠ [] := by rw [hs1u]; exact hne
  have hMF := unitsMF_buildIndex s sp
  have hfinne : (buildIndex s sp).units ≠ [] := by
    have h1 : (unitsMF (buildIndex s sp)).length = (unitsMF s1).length := by
      rw [hMF]
      unfold unitsMF
      rw [List.length_map, List.length_map, applyExclusions_length]
    unfold unitsMF at h1
    rw [List.length_map, List.length_map] at h1
    intro h0
    rw [h0] at h1
    cases hu : s.units with
    | nil => exact absurd hu hne
    | cons u v =>
      rw [hs1u, hu] at h1
      simp at h1
  constructor
  · intro P hP a ha u hu hfp
    have hsp : sp ≠ [] := by
      intro h0
      rw [h0] at hP
      simp at hP
    have marks := applyExclusions_marks s1 sp hne1 hsp
    have haF : a ∈ sp.foldl
        (fun acc p => collectAncLoop (s1.units.headD default).filePath (p.length + 1) p acc)
        s1.foldersToExclude :=
      exclusionFold_complete _ sp _ P hP a ha
    have humem : (u.filePath, u.mustExclude) ∈ unitsMF (buildIndex s sp) :=
      List.mem_map.mpr ⟨u, hu, rfl⟩
    rw [hMF] at humem
    obtain ⟨v, hv, hveq⟩ := List.mem_map.mp humem
    have hvf : v.filePath = u.filePath := congrArg Prod.fst hveq
    have hvm : v.mustExclude = u.mustExclude := congrArg Prod.snd hveq
    have := marks.1 v hv (by rw [hvf, hfp]; exact haF)
    rw [← hvm]
    exact this
  · have hhead : ((buildIndex s sp).units.headD default).mustExclude =
        ((applyExclusions s1 sp).units.headD default).mustExclude := by
      have haene : (applyExclusions s1 sp).units ≠ [] := by
        intro h0
        have := applyExclusions_length s1 sp
        rw [h0, hs1u] at this
        cases hu : s.units with
        | nil => exact absurd hu hne
        | cons u v => rw [hu] at this; simp at this
      have h1 := headMF (buildIndex s sp) hfinne
      have h2 := headMF (applyExclusions s1 sp) haene
      rw [hMF] at h1
      rw [h2] at h1
      exact congrArg Prod.snd h1.symm
    by_cases hsp : sp = []
    · subst hsp
      have : applyExclusions s1 [] = s1 := rfl
      rw [hhead, this, hs1u]
    · have marks := applyExclusions_marks s1 sp hne1 hsp
      have hrootF : (s1.units.headD default).filePath ∉ sp.foldl
          (fun acc p => collectAncLoop (s1.units.headD default).filePath (p.length + 1) p acc)
          s1.foldersToExclude := by
        apply exclusionFold_root_free
        rw [hs1f, hs1u]
        exact hroot0
      rw [hhead, marks.2 hrootF, hs1u]

/-- Witness for `C5_exclusion_propagation` at the claim's example: the
skipped file `root/assets/img.png` marks `root/assets` excluded while
`root` itself stays unmarked. -/
theorem C5_exclusion_propagation_witness :
    (c5Pre.units ≠ [] ∧ (c5Pre.units.headD default).filePath ∉ c5Pre.foldersToExclude) ∧
    ancChainBelow (c5Pre.units.headD default).filePath
      ((sl "root/assets/img.png").length + 1) (sl "root/assets/img.png") = [sl "root/assets"] ∧
    (∀ u ∈ (buildIndex c5Pre [sl "root/assets/img.png"]).units,
      u.filePath = sl "root/assets" → u.mustExclude = true) ∧
    ((buildIndex c5Pre [sl "root/assets/img.png"]).units.headD default).mustExclude = false := by
  have h := C5_exclusion_propagation c5Pre [sl "root/assets/img.png"] (by decide) (by decide)
  refine ⟨⟨by decide, by decide⟩, by decide, ?_, ?_⟩
  · intro u hu hfp
    refine h.1 (sl "root/assets/img.png") (List.mem_singleton.mpr rfl) (sl "root/assets")
      ?_ u hu hfp
    decide
  · rw [h.2]
    decide

/-- Witness for `C10_root_dir_path_shape`: an empty index yields `""`; for
the populated index of `c1Pre` a sub-directory document gets `"../"` (ending
in exactly one slash) and a root-level document gets `""`. -/
theorem C10_root_dir_path_shape_witness :
    ((mkEngine false []).units.isEmpty = true ∧
      getRootDirPathFor (mkEngine false []) (sl "/x.txt") = []) ∧
    getRootDirPathFor (buildIndex c1Pre []) (sl "/r/sub/doc.txt") = sl "../" ∧
    getRootDirPathFor (buildIndex c1Pre []) (sl "/r/doc.txt") = [] ∧
    (getRootDirPathFor (buildIndex c1Pre []) (sl "/r/sub/doc.txt") = [] ∨
      ∃ q, getRootDirPathFor (buildIndex c1Pre []) (sl "/r/sub/doc.txt") = q ++ ['/'] ∧
        q ≠ [] ∧ q.getLast? ≠ some '/' ∧
        '\\' ∉ getRootDirPathFor (buildIndex c1Pre []) (sl "/r/sub/doc.txt")) := by
  refine ⟨⟨by decide, ?_⟩, by decide, by decide, ?_⟩
  · exact (C10_root_dir_path_shape (mkEngine false []) (sl "/x.txt")).1 (by decide)
  · exact (C10_root_dir_path_shape (buildIndex c1Pre []) (sl "/r/sub/doc.txt")).2

/-- C1: for the flat sibling group `"1 A"`, `"1.1 B"`, `"1.1.1 C"`, `"2 D"`
inserted under one root, `buildIndex` produces the tree
A(children: B(children: C)) with D staying a sibling of A at depth 0
(root's children are exactly A and D, in that order), and the result is
identical when the promotion work queue is processed in the opposite
(LIFO) order. -/
theorem C1_transitive_promotion :
    ((buildIndex c1Pre []).units.map (fun u => (u.fileName, u.children)) =
      [(sl "r", some [1, 4]), (sl "1 A", some [2]), (sl "1.1 B", some [3]),
       (sl "1.1.1 C", none), (sl "2 D", none)]) ∧
    childrenOf (buildIndex c1Pre []) 0 = [1, 4] ∧
    childrenOf (buildIndex c1Pre []) 1 = [2] ∧
    childrenOf (buildIndex c1Pre []) 2 = [3] ∧
    (getU (buildIndex c1Pre []) 3).children = none ∧
    (getU (buildIndex c1Pre []) 4).children = none ∧
    buildIndexAlt c1Pre [] = buildIndex c1Pre [] := by
  decide

set_option maxRecDepth 4096 in
/-- C7 counterexample: in the finalised tree of `c7State` the directory
`/r/X` is excluded, yet the render walk still visits its descendant
`/r/X/f.txt` — the walk builds registry proxies for it, computing even its
label `"My File"` and link `"X/f.html"` — refuting the claim that a unit's
subtree is visited only if the unit itself is not excluded. -/
theorem C7_counterexample :
    (getU c7State 1).filePath = sl "/r/X" ∧
    (getU c7State 1).mustExclude = true ∧
    childrenOf c7State 1 = [2] ∧
    (getU c7State 2).filePath = sl "/r/X/f.txt" ∧
    ((buildNavState c7State (sl "/r/g.txt")).1.any
      (fun e => e.1 == sl "/r/X/f.txt#leaf_content_link")) = true ∧
    ((buildNavState c7State (sl "/r/g.txt")).1.filter
        (fun e => e.1 == sl "/r/X/f.txt#leaf_content_link")).map (fun e => e.2.data) =
      [[sl "X/f.html", sl "My File"]] := by
  decide

set_option maxRecDepth 4096 in
/-- C7 amended: every unit with `excluded = true` is skipped in the
universal sense that the walk callback returns with the registry and root
container unchanged — for every document id, unit, parent and walk state,
`navCallback` on an excluded unit is the identity on the state — so an
excluded unit itself never contributes an item, label or link; and in the
rendered example `c7State` the excluded directory's subtree accordingly
contributes nothing to the returned markup (no `"My File"`, `"f.html"` or
`"X/"`) while the non-excluded sibling renders (`"Other Doc"`,
`"g.html"`), the walk's visit of that subtree leaving only orphan proxies
that never attach to the root container. -/
theorem C7_excluded_not_in_markup :
    (∀ (docId : List Char) (u : CUnit) (parent : Option CUnit) (st : NavSt),
      u.mustExclude = true → navCallback docId u parent st = (st, false)) ∧
    containsSub (getHtmlNavigationFor c7State (sl "/r/g.txt")) (sl "My File") = false ∧
    containsSub (getHtmlNavigationFor c7State (sl "/r/g.txt")) (sl "f.html") = false ∧
    containsSub (getHtmlNavigationFor c7State (sl "/r/g.txt")) (sl "X/")     = false ∧
    containsSub (getHtmlNavigationFor c7State (sl "/r/g.txt")) (sl "Other Doc") = true ∧
    containsSub (getHtmlNavigationFor c7State (sl "/r/g.txt")) (sl "g.html") = true := by
  refine ⟨?_, by decide, by decide, by decide, by decide, by decide⟩
  intro docId u parent st h
  unfold navCallback
  rw [if_pos h]

set_option maxRecDepth 4096 in
/-- Witness for `C7_excluded_not_in_markup`: applied to the excluded
directory `/r/X` of `c7State` (its `mustExclude` is `true`), the walk
callback returns the empty walk state unchanged. -/
theorem C7_excluded_not_in_markup_witness :
    (getU c7State 1).mustExclude = true ∧
    navCallback (sl "/r/g.txt") (getU c7State 1) (some (getU c7State 0))
      (([], none) : NavSt) = ((([], none) : NavSt), false) := by
  refine ⟨by decide, ?_⟩
  exact C7_excluded_not_in_markup.1 (sl "/r/g.txt") (getU c7State 1)
    (some (getU c7State 0)) (([], none) : NavSt) (by decide)

/-- C2 counterexample: in `c2Pre` the root's sibling group is `A ("2 A",
key [2])`, `B ("B", no key)`, `C ("1 C", key [1])`; `buildIndex` leaves
the group in that order (every adjacent pair compares 0 against the
unkeyed `B`), yet the later child `C` compares strictly less than the
earlier child `A` — refuting the claimed all-pairs comparator order. -/
theorem C2_counterexample :
    childrenOf (buildIndex c2Pre []) 0 = [1, 2, 3] ∧
    multiPartComparison (getU (buildIndex c2Pre []) 3) (getU (buildIndex c2Pre []) 1) < 0 ∧
    ¬ allPairsOk (buildIndex c2Pre []) (childrenOf (buildIndex c2Pre []) 0) := by
  refine ⟨by decide, by decide, fun h => ?_⟩
  rw [show childrenOf (buildIndex c2Pre []) 0 = [1, 2, 3] from by decide] at h
  have h13 := (List.pairwise_cons.mp h).1 3 (by simp)
  exact absurd h13 (by decide)

/-! ## Comparator algebra: antisymmetry and restricted transitivity of
`_multiPartComparison` (needed for the finalisation ordering invariant). -/
theorem segDeltaB_eq_neg (b : List Nat) : segDeltaB b = -(segDelta b []) := by
  induction b with
  | nil => rfl
  | cons y ys ih =>
    by_cases hy : (y : Int) = 0
    · simp only [segDeltaB, segDelta, hy, sub_zero, zero_sub, neg_zero, ne_eq,
        not_true_eq_false, if_false, ite_false, neg_eq_zero]
      simp [hy, ih]
    · have h1 : (0 : Int) - (y : Int) ≠ 0 := by omega
      simp only [segDeltaB, segDelta, h1, hy, ne_eq, not_false_eq_true, if_true, ite_true]
      omega

theorem segDelta_antisym (a : List Nat) : ∀ b, segDelta a b = -(segDelta b a) := by
  induction a with
  | nil =>
    intro b
    show segDeltaB b = _
    exact segDeltaB_eq_neg b
  | cons x xs ih =>
    intro b
    cases b with
    | nil =>
      show segDelta (x :: xs) [] = -(segDeltaB (x :: xs))
      rw [segDeltaB_eq_neg, neg_neg]
    | cons y ys =>
      have hL : segDelta (x :: xs) (y :: ys) =
          if (x : Int) - (y : Int) ≠ 0 then (x : Int) - (y : Int) else segDelta xs ys := rfl
      have hR : segDelta (y :: ys) (x :: xs) =
          if (y : Int) - (x : Int) ≠ 0 then (y : Int) - (x : Int) else segDelta ys xs := rfl
      rw [hL, hR]
      by_cases hxy : (x : Int) - (y : Int) = 0
      · have hyx : (y : Int) - (x : Int) = 0 := by omega
        rw [if_neg (by omega), if_neg (by omega), ih ys]
      · rw [if_pos (by omega), if_pos (by omega)]
        omega
theorem cmpNumbering_none_right (na : Option (List Nat)) : cmpNumbering na none = 0 := by
  cases na with
  | none => rfl
  | some a => by_cases h : a.length = 0 <;> simp [cmpNumbering, h]

theorem cmpNumbering_some_some (a b : List Nat) (ha : a.length ≠ 0) (hb : b.length ≠ 0) :
    cmpNumbering (some a) (some b) =
      (if segDelta a b ≠ 0 then segDelta a b else (a.length : Int) - (b.length : Int)) := by
  simp only [cmpNumbering, ha, hb, if_false]

theorem cmpNumbering_empty_left (nb : Option (List Nat)) (a : List Nat) (ha : a.length = 0) :
    cmpNumbering (some a) nb = 0 := by
  simp [cmpNumbering, ha]

theorem cmpNumbering_empty_right (na : Option (List Nat)) (b : List Nat) (hb : b.length = 0) :
    cmpNumbering na (some b) = 0 := by
  cases na with
  | none => rfl
  | some a =>
    by_cases ha : a.length = 0
    · simp [cmpNumbering, ha]
    · simp [cmpNumbering, ha, hb]

theorem cmpNumbering_antisym (na nb : Option (List Nat)) :
    cmpNumbering na nb = -(cmpNumbering nb na) := by
  cases na with
  | none =>
    show (0 : Int) = -(cmpNumbering nb none)
    rw [cmpNumbering_none_right, neg_zero]
  | some a =>
    cases nb with
    | none =>
      show cmpNumbering (some a) none = -(0 : Int)
      rw [cmpNumbering_none_right, neg_zero]
    | some b =>
      by_cases ha : a.length = 0
      · rw [cmpNumbering_empty_left _ _ ha, cmpNumbering_empty_right _ _ ha, neg_zero]
      · by_cases hb : b.length = 0
        · rw [cmpNumbering_empty_left _ _ hb, cmpNumbering_empty_right _ _ hb, neg_zero]
        · rw [cmpNumbering_some_some a b ha hb, cmpNumbering_some_some b a hb ha,
            segDelta_antisym a b]
          by_cases hd : segDelta b a = 0
          · rw [hd, neg_zero, if_neg (by omega), if_neg (by omega)]
            omega
          · rw [if_pos (by omega), if_pos (by omega)]
theorem segDelta_trans_aux :
    ∀ (n : Nat) (a b c : List Nat), a.length + b.length + c.length ≤ n →
      0 ≤ segDelta a b → 0 ≤ segDelta b c →
      0 ≤ segDelta a c ∧ (segDelta a c = 0 → segDelta a b = 0 ∧ segDelta b c = 0) := by
  intro n
  induction n with
  | zero =>
    intro a b c hlen h1 h2
    have ha : a = [] := List.eq_nil_of_length_eq_zero (by omega)
    have hb : b = [] := List.eq_nil_of_length_eq_zero (by omega)
    have hc : c = [] := List.eq_nil_of_length_eq_zero (by omega)
    subst ha; subst hb; subst hc
    exact ⟨le_refl 0, fun _ => ⟨rfl, rfl⟩⟩
  | succ n ih =>
    intro a b c hlen h1 h2
    cases a with
    | nil =>
      cases b with
      | nil => exact ⟨h2, fun h => ⟨rfl, h⟩⟩
      | cons y ys =>
        have hby : segDelta ([] : List Nat) (y :: ys) =
            if (0 : Int) - (y : Int) ≠ 0 then (0 : Int) - (y : Int) else segDelta [] ys := rfl
        cases c with
        | nil =>
          have hanti := segDelta_antisym (y :: ys) []
          constructor
          · exact le_refl 0
          · intro _
            constructor
            · show segDelta [] (y :: ys) = 0
              omega
            · omega
        | cons z zs =>
          rw [hby] at h1
          by_cases hy : (y : Int) = 0
          · rw [if_neg (by omega)] at h1
            have hbc : segDelta (y :: ys) (z :: zs) =
                if (y : Int) - (z : Int) ≠ 0 then (y : Int) - (z : Int)
                else segDelta ys zs := rfl
            rw [hbc] at h2
            by_cases hz : (z : Int) = 0
            · rw [if_neg (by omega)] at h2
              have hrec := ih [] ys zs (by simp at hlen ⊢; omega) h1 h2
              have hac : segDelta ([] : List Nat) (z :: zs) =
                  if (0 : Int) - (z : Int) ≠ 0 then (0 : Int) - (z : Int)
                  else segDelta [] zs := rfl
              rw [hac, if_neg (by omega)]
              refine ⟨hrec.1, fun h => ?_⟩
              have := hrec.2 h
              rw [hby, if_neg (by omega), hbc, if_neg (by omega)]
              exact this
            · rw [if_pos (by omega)] at h2
              omega
          · rw [if_pos (by omega)] at h1
            omega
    | cons x xs =>
      have haN : segDelta (x :: xs) [] =
          if (x : Int) ≠ 0 then (x : Int) else segDelta xs [] := rfl
      cases b with
      | nil =>
        cases c with
        | nil => exact ⟨h1, fun h => ⟨h, rfl⟩⟩
        | cons z zs =>
          have hbc : segDelta ([] : List Nat) (z :: zs) =
              if (0 : Int) - (z : Int) ≠ 0 then (0 : Int) - (z : Int)
              else segDelta [] zs := rfl
          rw [hbc] at h2
          by_cases hz : (z : Int) = 0
          · rw [if_neg (by omega)] at h2
            rw [haN] at h1
            have hac : segDelta (x :: xs) (z :: zs) =
                if (x : Int) - (z : Int) ≠ 0 then (x : Int) - (z : Int)
                else segDelta xs zs := rfl
            by_cases hx : (x : Int) = 0
            · rw [if_neg (by omega)] at h1
              have hrec := ih xs [] zs (by simp at hlen ⊢; omega) h1 h2
              rw [hac, if_neg (by omega)]
              refine ⟨hrec.1, fun h => ?_⟩
              have := hrec.2 h
              rw [haN, if_neg (by omega), hbc, if_neg (by omega)]
              exact this
            · rw [hac, if_pos (by omega)]
              constructor
              · omega
              · intro h; omega
          · rw [if_pos (by omega)] at h2
            omega
      | cons y ys =>
        have hab : segDelta (x :: xs) (y :: ys) =
            if (x : Int) - (y : Int) ≠ 0 then (x : Int) - (y : Int)
            else segDelta xs ys := rfl
        rw [hab] at h1
        cases c with
        | nil =>
          have hbN : segDelta (y :: ys) [] =
              if (y : Int) ≠ 0 then (y : Int) else segDelta ys [] := rfl
          rw [hbN] at h2
          by_cases hxy : (x : Int) - (y : Int) = 0
          · rw [if_neg (by omega)] at h1
            by_cases hy : (y : Int) = 0
            · rw [if_neg (by omega)] at h2
              have hrec := ih xs ys [] (by simp at hlen ⊢; omega) h1 h2
              rw [haN, if_neg (by omega)]
              refine ⟨hrec.1, fun h => ?_⟩
              have := hrec.2 h
              rw [hab, if_neg (by omega), hbN, if_neg (by omega)]
              exact this
            · rw [haN, if_pos (by omega)]
              exact ⟨by omega, fun h => by omega⟩
          · rw [if_pos (by omega)] at h1
            rw [haN, if_pos (by omega)]
            constructor
            · omega
            · intro h; omega
        | cons z zs =>
          have hbc : segDelta (y :: ys) (z :: zs) =
              if (y : Int) - (z : Int) ≠ 0 then (y : Int) - (z : Int)
              else segDelta ys zs := rfl
          rw [hbc] at h2
          have hac : segDelta (x :: xs) (z :: zs) =
              if (x : Int) - (z : Int) ≠ 0 then (x : Int) - (z : Int)
              else segDelta xs zs := rfl
          by_cases hxy : (x : Int) - (y : Int) = 0
          · rw [if_neg (by omega)] at h1
            by_cases hyz : (y : Int) - (z : Int) = 0
            · rw [if_neg (by omega)] at h2
              have hrec := ih xs ys zs (by simp at hlen ⊢; omega) h1 h2
              rw [hac, if_neg (by omega)]
              refine ⟨hrec.1, fun h => ?_⟩
              have := hrec.2 h
              rw [hab, if_neg (by omega), hbc, if_neg (by omega)]
              exact this
            · rw [if_pos (by omega)] at h2
              rw [hac, if_pos (by omega)]
              exact ⟨by omega, fun h => by omega⟩
          · rw [if_pos (by omega)] at h1
            by_cases hyz : (y : Int) - (z : Int) = 0
            · rw [hac, if_pos (by omega)]
              exact ⟨by omega, fun h => by omega⟩
            · rw [if_pos (by omega)] at h2
              rw [hac, if_pos (by omega)]
              exact ⟨by omega, fun h => by omega⟩

theorem segDelta_trans (a b c : List Nat) :
    0 ≤ segDelta a b → 0 ≤ segDelta b c →
    0 ≤ segDelta a c ∧ (segDelta a c = 0 → segDelta a b = 0 ∧ segDelta b c = 0) :=
  segDelta_trans_aux (a.length + b.length + c.length) a b c (le_refl _)
theorem cmpN_nonneg_iff (a b : List Nat) (ha : a.length ≠ 0) (hb : b.length ≠ 0) :
    0 ≤ cmpNumbering (some a) (some b) ↔
      0 ≤ segDelta a b ∧ (segDelta a b = 0 → (b.length : Int) ≤ (a.length : Int)) := by
  rw [cmpNumbering_some_some a b ha hb]
  by_cases hd : segDelta a b = 0
  · rw [if_neg (by omega)]
    constructor
    · intro h; exact ⟨by omega, fun _ => by omega⟩
    · intro h; have := h.2 hd; omega
  · rw [if_pos (by omega)]
    constructor
    · intro h; exact ⟨h, fun h0 => absurd h0 hd⟩
    · intro h; exact h.1

theorem cmpN_eq_zero_iff (a b : List Nat) (ha : a.length ≠ 0) (hb : b.length ≠ 0) :
    cmpNumbering (some a) (some b) = 0 ↔ segDelta a b = 0 ∧ a.length = b.length := by
  rw [cmpNumbering_some_some a b ha hb]
  by_cases hd : segDelta a b = 0
  · rw [if_neg (by omega)]
    constructor
    · intro h; exact ⟨hd, by omega⟩
    · intro h; omega
  · rw [if_pos (by omega)]
    constructor
    · intro h; exact absurd h hd
    · intro h; exact absurd h.1 hd

theorem cmpN_trans_strong (a b c : List Nat) (ha : a.length ≠ 0) (hb : b.length ≠ 0)
    (hc : c.length ≠ 0)
    (h1 : 0 ≤ cmpNumbering (some a) (some b)) (h2 : 0 ≤ cmpNumbering (some b) (some c)) :
    0 ≤ cmpNumbering (some a) (some c) ∧
      (cmpNumbering (some a) (some c) = 0 →
        cmpNumbering (some a) (some b) = 0 ∧ cmpNumbering (some b) (some c) = 0) := by
  rw [cmpN_nonneg_iff a b ha hb] at h1
  rw [cmpN_nonneg_iff b c hb hc] at h2
  have hs := segDelta_trans a b c h1.1 h2.1
  constructor
  · rw [cmpN_nonneg_iff a c ha hc]
    refine ⟨hs.1, fun h0 => ?_⟩
    have hz := hs.2 h0
    have := h1.2 hz.1
    have := h2.2 hz.2
    omega
  · intro h0
    rw [cmpN_eq_zero_iff a c ha hc] at h0
    have hz := hs.2 h0.1
    have hl1 := h1.2 hz.1
    have hl2 := h2.2 hz.2
    rw [cmpN_eq_zero_iff a b ha hb, cmpN_eq_zero_iff b c hb hc]
    refine ⟨⟨hz.1, by omega⟩, ⟨hz.2, by omega⟩⟩

/-! ## The stable sort model: `jsSort` is a permutation, leaves adjacent
pairs non-inverted (given comparator antisymmetry), and keeps every
tied pair in input order. -/
theorem mem_insRev {α : Type} (cmp : α → α → Int) (x : α) :
    ∀ (acc : List α) (a : α), a ∈ insRev cmp x acc ↔ a = x ∨ a ∈ acc := by
  intro acc
  induction acc with
  | nil => intro a; simp [insRev]
  | cons y ys ih =>
    intro a
    unfold insRev
    split
    · rw [List.mem_cons, ih a, List.mem_cons]
      tauto
    · simp only [List.mem_cons]

theorem insRev_perm {α : Type} (cmp : α → α → Int) (x : α) :
    ∀ (acc : List α), (insRev cmp x acc).Perm (x :: acc) := by
  intro acc
  induction acc with
  | nil => exact List.Perm.refl _
  | cons y ys ih =>
    unfold insRev
    split
    · exact ((ih.cons y).trans (List.Perm.swap x y ys))
    · exact List.Perm.refl _

theorem foldl_insRev_perm {α : Type} (cmp : α → α → Int) :
    ∀ (l acc : List α), (l.foldl (fun a z => insRev cmp z a) acc).Perm (l ++ acc) := by
  intro l
  induction l with
  | nil => intro acc; simp
  | cons x xs ih =>
    intro acc
    rw [List.foldl_cons]
    refine (ih (insRev cmp x acc)).trans ?_
    refine (List.Perm.append_left xs (insRev_perm cmp x acc)).trans ?_
    exact (List.perm_middle).trans (List.Perm.refl _)

theorem jsSort_perm {α : Type} (cmp : α → α → Int) (l : List α) :
    (jsSort cmp l).Perm l := by
  unfold jsSort
  refine (List.reverse_perm _).trans ?_
  simpa using foldl_insRev_perm cmp l []

theorem insRev_chain {α : Type} (cmp : α → α → Int)
    (hanti : ∀ p q, cmp p q < 0 → 0 < cmp q p) (x : α) :
    ∀ (acc : List α), List.Chain' (fun a b => 0 ≤ cmp a b) acc →
      List.Chain' (fun a b => 0 ≤ cmp a b) (insRev cmp x acc) := by
  intro acc
  induction acc with
  | nil => intro _; simp [insRev]
  | cons y ys ih =>
    intro h
    rw [List.chain'_cons'] at h
    unfold insRev
    split
    · rw [List.chain'_cons']
      refine ⟨?_, ih h.2⟩
      intro z hz
      cases ys with
      | nil =>
        simp [insRev] at hz
        subst hz
        have := hanti x y (by assumption)
        omega
      | cons w ws =>
        unfold insRev at hz
        split at hz
        · simp at hz
          subst hz
          exact h.1 w (by simp)
        · simp at hz
          subst hz
          have := hanti x y (by assumption)
          omega
    · rw [List.chain'_cons']
      refine ⟨?_, h.2.cons' h.1⟩
      intro z hz
      simp at hz
      subst hz
      omega

theorem foldl_insRev_chain {α : Type} (cmp : α → α → Int)
    (hanti : ∀ p q, cmp p q < 0 → 0 < cmp q p) :
    ∀ (l acc : List α), List.Chain' (fun a b => 0 ≤ cmp a b) acc →
      List.Chain' (fun a b => 0 ≤ cmp a b) (l.foldl (fun a z => insRev cmp z a) acc) := by
  intro l
  induction l with
  | nil => intro acc h; exact h
  | cons x xs ih =>
    intro acc h
    rw [List.foldl_cons]
    exact ih _ (insRev_chain cmp hanti x acc h)

theorem jsSort_chain {α : Type} (cmp : α → α → Int)
    (hanti : ∀ p q, cmp p q < 0 → 0 < cmp q p) (l : List α) :
    List.Chain' (fun a b => 0 ≤ cmp b a) (jsSort cmp l) := by
  unfold jsSort
  rw [List.chain'_reverse]
  exact foldl_insRev_chain cmp hanti l [] (by simp)
theorem insRev_pairwiseT {α : Type} (cmp : α → α → Int) (R : α → α → Prop) (x : α) :
    ∀ (acc : List α), (∀ y ∈ acc, R y x) →
      List.Pairwise (fun a b => cmp a b = 0 → R a b) acc.reverse →
      List.Pairwise (fun a b => cmp a b = 0 → R a b) (insRev cmp x acc).reverse := by
  intro acc
  induction acc with
  | nil => intro _ _; simp [insRev]
  | cons y ys ih =>
    intro hR hP
    rw [List.reverse_cons, List.pairwise_append] at hP
    unfold insRev
    split
    · rw [List.reverse_cons, List.pairwise_append]
      refine ⟨ih (fun z hz => hR z (List.mem_cons_of_mem y hz)) hP.1, hP.2.1, ?_⟩
      intro a ha b hb
      rw [List.mem_reverse, mem_insRev] at ha
      rw [List.mem_singleton] at hb
      rw [hb]
      rcases ha with ha | ha
      · subst ha
        intro h0
        exact absurd h0 (by omega)
      · exact hP.2.2 a (List.mem_reverse.mpr ha) y (List.mem_singleton.mpr rfl)
    · rw [List.reverse_cons, List.pairwise_append]
      refine ⟨?_, List.pairwise_singleton _ _, ?_⟩
      · rw [List.reverse_cons, List.pairwise_append]
        exact ⟨hP.1, hP.2.1, hP.2.2⟩
      · intro a ha b hb
        rw [List.mem_singleton] at hb
        rw [hb]
        intro _
        rw [List.mem_reverse] at ha
        exact hR a ha

theorem foldl_insRev_pairwiseT {α : Type} (cmp : α → α → Int) (R : α → α → Prop) :
    ∀ (l acc : List α), List.Pairwise R l → (∀ y ∈ acc, ∀ x ∈ l, R y x) →
      List.Pairwise (fun a b => cmp a b = 0 → R a b) acc.reverse →
      List.Pairwise (fun a b => cmp a b = 0 → R a b)
        (List.foldl (fun a z => insRev cmp z a) acc l).reverse := by
  intro l
  induction l with
  | nil => intro acc _ _ hP; exact hP
  | cons x xs ih =>
    intro acc hl hcross hP
    rw [List.foldl_cons]
    rw [List.pairwise_cons] at hl
    refine ih (insRev cmp x acc) hl.2 ?_ ?_
    · intro y hy z hz
      rw [mem_insRev] at hy
      rcases hy with hy | hy
      · subst hy
        exact hl.1 z hz
      · exact hcross y hy z (List.mem_cons_of_mem x hz)
    · exact insRev_pairwiseT cmp R x acc (fun y hy => hcross y hy x (List.mem_cons_self x xs)) hP

theorem jsSort_pairwiseT {α : Type} (cmp : α → α → Int) (R : α → α → Prop) (l : List α)
    (hl : List.Pairwise R l) :
    List.Pairwise (fun a b => cmp a b = 0 → R a b) (jsSort cmp l) := by
  unfold jsSort
  exact foldl_insRev_pairwiseT cmp R l [] hl (by simp) (by simp)

/-! ## Arena access lemmas. -/
theorem getDl (l : List Nat) (j : Nat) (h : j < l.length) : l.getD j 0 = l[j] := by
  rw [List.getD_eq_getElem?_getD, List.getElem?_eq_getElem h]
  rfl

theorem getLastD_of_ne (l : List Nat) (h : l ≠ []) : l.getLastD 0 = l.getLast h := by
  rw [List.getLastD_eq_getLast?, List.getLast?_eq_getLast l h]
  rfl

theorem getLastD_concat_nat (l : List Nat) (a : Nat) : (l ++ [a]).getLastD 0 = a := by
  rw [List.getLastD_eq_getLast?, List.getLast?_concat]
  rfl

theorem getU_of_le (s : EngineState) (k : Nat) (h : s.units.length ≤ k) :
    getU s k = default := by
  unfold getU
  exact List.getD_eq_default _ _ h

theorem getU_setU (s : EngineState) (k : Nat) (u : CUnit) (i : Nat) :
    getU (setU s k u) i = if k = i ∧ k < s.units.length then u else getU s i := by
  show (s.units.set k u).getD i default = _
  rw [List.getD_eq_getElem?_getD, List.getElem?_set]
  by_cases hki : k = i
  · subst hki
    by_cases hk : k < s.units.length
    · rw [if_pos rfl, if_pos hk, if_pos ⟨rfl, hk⟩]
      rfl
    · rw [if_pos rfl, if_neg hk, if_neg (by tauto)]
      show default = getU s k
      rw [getU_of_le s k (by omega)]
  · rw [if_neg hki, if_neg (by tauto)]
    rw [getU, List.getD_eq_getElem?_getD]

theorem length_setU (s : EngineState) (k : Nat) (u : CUnit) :
    (setU s k u).units.length = s.units.length := by
  show (s.units.set k u).length = _
  exact List.length_set s.units k u

theorem getU_setChildren (s : EngineState) (k : Nat) (cs : List Nat) (i : Nat) :
    getU (setChildren s k cs) i =
      if k = i ∧ k < s.units.length then { getU s k with children := some cs }
      else getU s i := by
  unfold setChildren
  exact getU_setU s k _ i

theorem childrenOf_le (s : EngineState) (k : Nat) (h : s.units.length ≤ k) :
    childrenOf s k = [] := by
  unfold childrenOf
  rw [getU_of_le s k h]
  rfl

/-! ## The exclusion phase only rewrites exclusion marks. -/
theorem getU_applyExclusions (s : EngineState) (sp : List (List Char)) (i : Nat) :
    ∃ b, getU (applyExclusions s sp) i = { getU s i with mustExclude := b } := by
  unfold applyExclusions
  by_cases h0 : sp.isEmpty
  · rw [if_pos h0]
    exact ⟨(getU s i).mustExclude, rfl⟩
  · rw [if_neg h0]
    cases hh : s.units.head? with
    | none => exact ⟨(getU s i).mustExclude, rfl⟩
    | some rootUnit =>
      dsimp only
      split
      · exact ⟨(getU s i).mustExclude, rfl⟩
      · by_cases hi : i < s.units.length
        · show ∃ b, (s.units.map _).getD i default = _
          rw [List.getD_eq_getElem?_getD, List.getElem?_map,
            List.getElem?_eq_getElem hi]
          simp only [Option.map_some', Option.getD_some]
          have hg : getU s i = s.units[i] := by
            rw [getU, List.getD_eq_getElem?_getD, List.getElem?_eq_getElem hi]
            rfl
          rw [hg]
          split
          · exact ⟨true, rfl⟩
          · exact ⟨s.units[i].mustExclude, rfl⟩
        · show ∃ b, (s.units.map _).getD i default = _
          rw [List.getD_eq_default _ _ (by rw [List.length_map]; omega),
            getU_of_le s i (by omega)]
          exact ⟨false, rfl⟩

theorem childrenOf_applyExclusions (s : EngineState) (sp : List (List Char)) (k : Nat) :
    childrenOf (applyExclusions s sp) k = childrenOf s k := by
  obtain ⟨b, hb⟩ := getU_applyExclusions s sp k
  unfold childrenOf
  rw [hb]

theorem numbering_applyExclusions (s : EngineState) (sp : List (List Char)) (k : Nat) :
    (getU (applyExclusions s sp) k).numbering = (getU s k).numbering := by
  obtain ⟨b, hb⟩ := getU_applyExclusions s sp k
  rw [hb]

theorem ext_applyExclusions (s : EngineState) (sp : List (List Char)) (k : Nat) :
    (getU (applyExclusions s sp) k).fileExtension = (getU s k).fileExtension := by
  obtain ⟨b, hb⟩ := getU_applyExclusions s sp k
  rw [hb]

theorem children_applyExclusions (s : EngineState) (sp : List (List Char)) (k : Nat) :
    (getU (applyExclusions s sp) k).children = (getU s k).children := by
  obtain ⟨b, hb⟩ := getU_applyExclusions s sp k
  rw [hb]

/-! ## The sorting phase: each owner's group becomes its stable sort,
everything else is untouched. -/
theorem sortOwner_lt (s : EngineState) (o : Nat) (ids : List Nat)
    (h : (getU s o).children = some ids) : o < s.units.length := by
  by_contra hlt
  rw [getU_of_le s o (by omega)] at h
  exact Option.noConfusion h

theorem children_sortOwner (s : EngineState) (o x : Nat) :
    (getU (sortOwner s o) x).children =
      if x = o then ((getU s o).children).map
        (jsSort (fun i j => multiPartComparison (getU s i) (getU s j)))
      else (getU s x).children := by
  unfold sortOwner
  cases h : (getU s o).children with
  | none =>
    by_cases hx : x = o
    · subst hx
      rw [if_pos rfl, h]
      rfl
    · rw [if_neg hx]
  | some ids =>
    have ho := sortOwner_lt s o ids h
    rw [getU_setChildren]
    by_cases hx : x = o
    · subst hx
      rw [if_pos ⟨rfl, ho⟩, if_pos rfl]
      rfl
    · rw [if_neg (by tauto), if_neg hx]

theorem numbering_sortOwner (s : EngineState) (o x : Nat) :
    (getU (sortOwner s o) x).numbering = (getU s x).numbering := by
  unfold sortOwner
  cases h : (getU s o).children with
  | none => rfl
  | some ids =>
    rw [getU_setChildren]
    split
    · have : o = x := by tauto
      subst this
      rfl
    · rfl

theorem ext_sortOwner (s : EngineState) (o x : Nat) :
    (getU (sortOwner s o) x).fileExtension = (getU s x).fileExtension := by
  unfold sortOwner
  cases h : (getU s o).children with
  | none => rfl
  | some ids =>
    rw [getU_setChildren]
    split
    · have : o = x := by tauto
      subst this
      rfl
    · rfl

theorem length_sortOwner (s : EngineState) (o : Nat) :
    (sortOwner s o).units.length = s.units.length := by
  unfold sortOwner
  cases h : (getU s o).children with
  | none => rfl
  | some ids => exact length_setU s o _

theorem rawGroups_sortOwner (s : EngineState) (o : Nat) :
    (sortOwner s o).rawGroups = s.rawGroups := by
  unfold sortOwner
  cases h : (getU s o).children with
  | none => rfl
  | some ids => rfl

theorem foldl_sortOwner_facts (gs : List Nat) :
    ∀ (t : EngineState) (c : Nat → Nat → Int), gs.Nodup →
      (∀ i j, multiPartComparison (getU t i) (getU t j) = c i j) →
      (∀ x, (getU (gs.foldl sortOwner t) x).numbering = (getU t x).numbering) ∧
      (∀ x, (getU (gs.foldl sortOwner t) x).fileExtension = (getU t x).fileExtension) ∧
      (∀ x, (getU (gs.foldl sortOwner t) x).children =
        if x ∈ gs then ((getU t x).children).map (jsSort c) else (getU t x).children) ∧
      (gs.foldl sortOwner t).units.length = t.units.length ∧
      (gs.foldl sortOwner t).rawGroups = t.rawGroups := by
  induction gs with
  | nil =>
    intro t c _ hc
    refine ⟨fun x => rfl, fun x => rfl, fun x => ?_, rfl, rfl⟩
    rw [if_neg (List.not_mem_nil x)]
    rfl
  | cons g gs ih =>
    intro t c hnd hc
    rw [List.nodup_cons] at hnd
    rw [List.foldl_cons]
    have hc1 : ∀ i j,
        multiPartComparison (getU (sortOwner t g) i) (getU (sortOwner t g) j) = c i j := by
      intro i j
      show cmpNumbering (getU (sortOwner t g) i).numbering
        (getU (sortOwner t g) j).numbering = c i j
      rw [numbering_sortOwner, numbering_sortOwner]
      exact hc i j
    obtain ⟨q1, q2, q3, q4, q5⟩ := ih (sortOwner t g) c hnd.2 hc1
    refine ⟨fun x => ?_, fun x => ?_, fun x => ?_, ?_, ?_⟩
    · rw [q1, numbering_sortOwner]
    · rw [q2, ext_sortOwner]
    · rw [q3]
      by_cases hmem : x ∈ gs
      · rw [if_pos hmem, if_pos (List.mem_cons_of_mem g hmem)]
        have hxg : x ≠ g := fun h => hnd.1 (h ▸ hmem)
        rw [children_sortOwner, if_neg hxg]
      · rw [if_neg hmem]
        by_cases hxg : x = g
        · subst hxg
          rw [if_pos (List.mem_cons_self x gs), children_sortOwner, if_pos rfl]
          have hfn : (fun i j => multiPartComparison (getU t i) (getU t j)) = c :=
            funext fun i => funext fun j => hc i j
          rw [hfn]
        · rw [children_sortOwner, if_neg hxg,
            if_neg (by simp [List.mem_cons, hxg, hmem])]
    · rw [q4, length_sortOwner]
    · rw [q5, rawGroups_sortOwner]

/-! ## Chain and pairwise toolkit for the promotion proof. -/
theorem chain_head_all {α : Type} (S : α → α → Prop) (P : α → Prop)
    (htr : ∀ a b c, P a → P b → P c → S a b → S b c → S a c) :
    ∀ (l : List α) (x : α), P x → (∀ a ∈ l, P a) → List.Chain' S (x :: l) →
      ∀ b ∈ l, S x b := by
  intro l
  induction l with
  | nil => intro x _ _ _ b hb; exact absurd hb (List.not_mem_nil b)
  | cons y ys ih =>
    intro x hx hl hc b hb
    rw [List.chain'_cons] at hc
    rcases List.mem_cons.mp hb with hb | hb
    · rw [hb]
      exact hc.1
    · have hy : P y := hl y (List.mem_cons_self y ys)
      have hys : ∀ a ∈ ys, P a := fun a ha => hl a (List.mem_cons_of_mem y ha)
      have hSyb := ih y hy hys hc.2 b hb
      exact htr x y b hx hy (hys b hb) hc.1 hSyb

theorem chain_to_pairwise {α : Type} (S : α → α → Prop) (P : α → Prop)
    (htr : ∀ a b c, P a → P b → P c → S a b → S b c → S a c) :
    ∀ (l : List α), (∀ a ∈ l, P a) → List.Chain' S l → List.Pairwise S l := by
  intro l
  induction l with
  | nil => intro _ _; exact List.Pairwise.nil
  | cons x xs ih =>
    intro hl hc
    rw [List.pairwise_cons]
    refine ⟨?_, ih (fun a ha => hl a (List.mem_cons_of_mem x ha)) hc.tail⟩
    exact chain_head_all S P htr xs x (hl x (List.mem_cons_self x xs))
      (fun a ha => hl a (List.mem_cons_of_mem x ha)) hc

theorem pairwise_getElem {α : Type} (R : α → α → Prop) (l : List α)
    (h : List.Pairwise R l) (i j : Nat) (hi : i < l.length) (hj : j < l.length)
    (hij : i < j) : R l[i] l[j] := by
  have := List.pairwise_iff_get.mp h ⟨i, hi⟩ ⟨j, hj⟩ hij
  simpa using this

theorem chain_getElem {α : Type} (R : α → α → Prop) (l : List α)
    (h : List.Chain' R l) (i : Nat) (hi : i + 1 < l.length) : R l[i] l[i + 1] := by
  have := List.chain'_iff_get.mp h i (by omega)
  simpa using this

theorem not_mem_eraseIdx_self (l : List Nat) (i : Nat) (hi : i < l.length)
    (hnd : l.Nodup) : l[i] ∉ l.eraseIdx i := by
  intro hmem
  obtain ⟨j, hj, hje⟩ := List.mem_iff_getElem.mp hmem
  rw [List.getElem_eraseIdx] at hje
  split at hje
  · have : j = i := (List.Nodup.getElem_inj_iff hnd).mp hje
    omega
  · have hlen : (l.eraseIdx i).length = l.length - 1 := by
      rw [List.length_eraseIdx, if_pos hi]
    have : j + 1 = i := (List.Nodup.getElem_inj_iff hnd).mp hje
    omega

theorem chain_eraseIdx (S : Nat → Nat → Prop) (l : List Nat) (i : Nat)
    (hc : List.Chain' S l)
    (hpatch : 0 < i → i + 1 < l.length →
      S (l.getD (i - 1) 0) (l.getD (i + 1) 0)) :
    List.Chain' S (l.eraseIdx i) := by
  rw [List.chain'_iff_get]
  intro j hj
  simp only [List.get_eq_getElem]
  by_cases hiL : i < l.length
  · have hll : (l.eraseIdx i).length = l.length - 1 := by
      rw [List.length_eraseIdx, if_pos hiL]
    rw [List.getElem_eraseIdx, List.getElem_eraseIdx]
    by_cases h1 : j < i
    · rw [dif_pos h1]
      by_cases h2 : j + 1 < i
      · rw [dif_pos h2]
        exact chain_getElem S l hc j (by omega)
      · rw [dif_neg h2]
        have hp := hpatch (by omega) (by omega)
        rw [← getDl l j (by omega), ← getDl l (j + 1 + 1) (by omega)]
        rw [show i - 1 = j from by omega, show i + 1 = j + 1 + 1 from by omega] at hp
        exact hp
    · rw [dif_neg h1, dif_neg (by omega)]
      exact chain_getElem S l hc (j + 1) (by omega)
  · have heq : l.eraseIdx i = l := List.eraseIdx_of_length_le (by omega)
    simp only [heq] at hj ⊢
    exact chain_getElem S l hc j (by omega)

theorem segDelta_self (a : List Nat) : segDelta a a = 0 := by
  induction a with
  | nil => rfl
  | cons x xs ih =>
    have h : segDelta (x :: xs) (x :: xs) =
        if (x : Int) - (x : Int) ≠ 0 then (x : Int) - (x : Int) else segDelta xs xs := rfl
    rw [h, if_neg (by omega), ih]

theorem cmpNumbering_self (na : Option (List Nat)) : cmpNumbering na na = 0 := by
  cases na with
  | none => rfl
  | some a =>
    by_cases ha : a.length = 0
    · exact cmpNumbering_empty_left _ a ha
    · rw [cmpNumbering_some_some a a ha ha, segDelta_self, if_neg (by omega)]
      omega

theorem mpc_antisym (u v : CUnit) :
    multiPartComparison u v = -(multiPartComparison v u) :=
  cmpNumbering_antisym u.numbering v.numbering

theorem mpc_trans (ua ub uc : CUnit)
    (ha : ua.numbering ≠ none ∧ ua.numbering ≠ some [])
    (hb : ub.numbering ≠ none ∧ ub.numbering ≠ some [])
    (hc : uc.numbering ≠ none ∧ uc.numbering ≠ some [])
    (h1 : 0 ≤ multiPartComparison ua ub) (h2 : 0 ≤ multiPartComparison ub uc) :
    0 ≤ multiPartComparison ua uc ∧ (multiPartComparison ua uc = 0 →
      multiPartComparison ua ub = 0 ∧ multiPartComparison ub uc = 0) := by
  obtain ⟨a, hA⟩ : ∃ a, ua.numbering = some a := by
    cases h : ua.numbering with
    | none => exact absurd h ha.1
    | some a => exact ⟨a, rfl⟩
  obtain ⟨b, hB⟩ : ∃ b, ub.numbering = some b := by
    cases h : ub.numbering with
    | none => exact absurd h hb.1
    | some b => exact ⟨b, rfl⟩
  obtain ⟨c, hC⟩ : ∃ c, uc.numbering = some c := by
    cases h : uc.numbering with
    | none => exact absurd h hc.1
    | some c => exact ⟨c, rfl⟩
  have ha' : a.length ≠ 0 := by
    intro h
    exact ha.2 (hA.trans (by rw [List.length_eq_zero.mp h]))
  have hb' : b.length ≠ 0 := by
    intro h
    exact hb.2 (hB.trans (by rw [List.length_eq_zero.mp h]))
  have hc' : c.length ≠ 0 := by
    intro h
    exact hc.2 (hC.trans (by rw [List.length_eq_zero.mp h]))
  have e1 : multiPartComparison ua ub = cmpNumbering (some a) (some b) := by
    show cmpNumbering ua.numbering ub.numbering = _
    rw [hA, hB]
  have e2 : multiPartComparison ub uc = cmpNumbering (some b) (some c) := by
    show cmpNumbering ub.numbering uc.numbering = _
    rw [hB, hC]
  have e3 : multiPartComparison ua uc = cmpNumbering (some a) (some c) := by
    show cmpNumbering ua.numbering uc.numbering = _
    rw [hA, hC]
  rw [e1] at h1
  rw [e2] at h2
  rw [e1, e2, e3]
  exact cmpN_trans_strong a b c ha' hb' hc' h1 h2

/-! ## The promotion scan preserves the global ordering invariant. -/
theorem nodup_getD_inj (l : List Nat) (hnd : l.Nodup) (a b : Nat)
    (ha : a < l.length) (hb : b < l.length) (h : l.getD a 0 = l.getD b 0) : a = b := by
  have h2 : l[a] = l[b] := by
    rw [← getDl _ _ ha, ← getDl _ _ hb]
    exact h
  exact (List.Nodup.getElem_inj_iff hnd).mp h2

theorem chain_getD (S : Nat → Nat → Prop) (l : List Nat) (hc : List.Chain' S l)
    (j : Nat) (h : j + 1 < l.length) : S (l.getD j 0) (l.getD (j + 1) 0) := by
  rw [getDl _ _ (by omega), getDl _ _ h]
  exact chain_getElem S l hc j h

theorem pairwise_getD (R : Nat → Nat → Prop) (l : List Nat) (h : List.Pairwise R l)
    (i j : Nat) (hi : i < l.length) (hj : j < l.length) (hij : i < j) :
    R (l.getD i 0) (l.getD j 0) := by
  rw [getDl _ _ hi, getDl _ _ hj]
  exact pairwise_getElem R l h i j hi hj hij

set_option maxHeartbeats 1000000 in
theorem promo_step (Init : Nat → List Nat) (s : EngineState) (owner i : Nat)
    (q : List Nat)
    (cs : List Nat) (pid uid : Nat) (s1 s2 s3 : EngineState) (q1 : List Nat)
    (hcs : cs = (getU s owner).children.getD [])
    (hpid : pid = cs.getD (i - 1) 0) (huid : uid = cs.getD i 0)
    (hs1 : s1 = if (getU s pid).children = none
      then setU s pid { getU s pid with children := some [] } else s)
    (hq1 : q1 = if (getU s pid).children = none then q ++ [pid] else q)
    (hs2 : s2 = setChildren s1 owner (cs.eraseIdx i))
    (hs3 : s3 = setU s2 pid { getU s2 pid with
      children := some ((getU s2 pid).children.getD [] ++ [uid]), isNode := true })
    (hinv : invAll s) (hA : sclA s owner i) (hB : sclB s owner i)
    (hQ : queueProp s q) (howq : owner ∉ q) (hshr : shrinkTo Init s)
    (hlt : i < cs.length) (hpos : 0 < i)
    (hprom : promotable (getU s pid) (getU s uid) = true) :
    invAll s3 ∧ sclA s3 owner i ∧ sclB s3 owner i ∧ queueProp s3 q1 ∧ owner ∉ q1 ∧
      shrinkTo Init s3 ∧
      (∀ x, (getU s3 x).numbering = (getU s x).numbering ∧
        (getU s3 x).fileExtension = (getU s x).fileExtension) := by
  obtain ⟨I1, I2, I3, I4, I5, I6, I7⟩ := hinv
  obtain ⟨Qn, Q3, QM⟩ := hQ
  simp only [promotable, Bool.and_eq_true, decide_eq_true_eq, ne_eq] at hprom
  obtain ⟨⟨⟨⟨hu_dir, hp_dir⟩, hu_si⟩, hp_si⟩, _⟩ := hprom
  have hco : childrenOf s owner = cs := hcs.symm
  have hcs_ne : cs ≠ [] := by
    intro h
    rw [h] at hlt
    simp at hlt
  have hown_lt : owner < s.units.length := by
    by_contra h
    rw [getU_of_le s owner (by omega)] at hcs
    exact hcs_ne (by rw [hcs]; rfl)
  have hch_some : (getU s owner).children = some cs := by
    cases h : (getU s owner).children with
    | none => rw [h] at hcs; exact absurd (by rw [hcs]; rfl) hcs_ne
    | some l =>
      rw [h] at hcs
      have hcl : cs = l := hcs
      rw [hcl]
  have hpid_lt : pid < s.units.length := by
    by_contra h
    rw [getU_of_le s pid (by omega)] at hp_si
    exact Bool.noConfusion hp_si
  have huid_lt : uid < s.units.length := by
    by_contra h
    rw [getU_of_le s uid (by omega)] at hu_si
    exact Bool.noConfusion hu_si
  have hpid_mem : pid ∈ cs := by
    rw [hpid, getDl _ _ (by omega)]
    exact List.getElem_mem _
  have huid_mem : uid ∈ cs := by
    rw [huid, getDl _ _ (by omega)]
    exact List.getElem_mem _
  have hpid_ne_owner : pid ≠ owner := by
    intro h
    exact I5 owner (hco ▸ (h ▸ hpid_mem))
  have huid_ne_owner : uid ≠ owner := by
    intro h
    exact I5 owner (hco ▸ (h ▸ huid_mem))
  have hnd_cs : cs.Nodup := hco ▸ I4 owner
  have hpid_ne_uid : pid ≠ uid := by
    intro h
    rw [hpid, huid] at h
    have := nodup_getD_inj cs hnd_cs (i - 1) i (by omega) hlt h
    omega
  have hp_good : (getU s pid).numbering ≠ none ∧ (getU s pid).numbering ≠ some [] := by
    refine ⟨?_, I6 pid⟩
    intro h
    rw [h] at hp_si
    exact Bool.noConfusion hp_si
  have hu_good : (getU s uid).numbering ≠ none ∧ (getU s uid).numbering ≠ some [] := by
    refine ⟨?_, I6 uid⟩
    intro h
    rw [h] at hu_si
    exact Bool.noConfusion hu_si
  have hlen1 : s1.units.length = s.units.length := by
    rw [hs1]
    split
    · exact length_setU s pid _
    · rfl
  have hlen2 : s2.units.length = s.units.length := by
    rw [hs2]
    show (s1.units.set owner _).length = _
    rw [List.length_set, hlen1]
  have hlen3 : s3.units.length = s.units.length := by
    rw [hs3]
    show (s2.units.set pid _).length = _
    rw [List.length_set, hlen2]
  have hgu1o : ∀ x, x ≠ pid → getU s1 x = getU s x := by
    intro x hx
    rw [hs1]
    split
    · rw [getU_setU, if_neg (fun hcon => hx hcon.1.symm)]
    · rfl
  have hg3 : ∀ x, getU s3 x =
      if x = pid then { getU s pid with
        children := some (((getU s pid).children.getD []) ++ [uid]), isNode := true }
      else if x = owner then { getU s owner with children := some (cs.eraseIdx i) }
      else getU s x := by
    intro x
    rw [hs3, getU_setU]
    by_cases hx : x = pid
    · subst hx
      rw [if_pos ⟨rfl, by omega⟩, if_pos rfl]
      have h2 : getU s2 x = getU s1 x := by
        rw [hs2, getU_setChildren, if_neg (fun hcon => hpid_ne_owner (hcon.1.symm))]
      rw [h2, hs1]
      split
      · next hcr =>
        rw [getU_setU, if_pos ⟨rfl, by omega⟩, hcr]
        rfl
      · rfl
    · rw [if_neg (fun hcon => hx hcon.1.symm), if_neg hx]
      have h2 : getU s2 x = if x = owner
          then { getU s1 owner with children := some (cs.eraseIdx i) } else getU s1 x := by
        rw [hs2, getU_setChildren]
        by_cases hxo : x = owner
        · subst hxo
          rw [if_pos ⟨rfl, by omega⟩, if_pos rfl]
        · rw [if_neg (fun hcon => hxo hcon.1.symm), if_neg hxo]
      rw [h2]
      by_cases hxo : x = owner
      · subst hxo
        rw [if_pos rfl, if_pos rfl, hgu1o x (fun hxp => hpid_ne_owner hxp.symm)]
      · rw [if_neg hxo, if_neg hxo, hgu1o x hx]
  have hnum3 : ∀ x, (getU s3 x).numbering = (getU s x).numbering := by
    intro x
    rw [hg3]
    split
    · next h => rw [h]
    · split
      · next h => rw [h]
      · rfl
  have hext3 : ∀ x, (getU s3 x).fileExtension = (getU s x).fileExtension := by
    intro x
    rw [hg3]
    split
    · next h => rw [h]
    · split
      · next h => rw [h]
      · rfl
  have hmpc3 : ∀ x y, multiPartComparison (getU s3 x) (getU s3 y) =
      multiPartComparison (getU s x) (getU s y) := by
    intro x y
    show cmpNumbering (getU s3 x).numbering (getU s3 y).numbering = _
    rw [hnum3, hnum3]
    rfl
  have hc3 : ∀ k, childrenOf s3 k =
      if k = pid then ((getU s pid).children.getD []) ++ [uid]
      else if k = owner then cs.eraseIdx i
      else childrenOf s k := by
    intro k
    unfold childrenOf
    rw [hg3]
    split
    · rfl
    · split
      · rfl
      · rfl
  have hc3p : childrenOf s3 pid = ((getU s pid).children.getD []) ++ [uid] := by
    rw [hc3, if_pos rfl]
  have hc3o : childrenOf s3 owner = cs.eraseIdx i := by
    rw [hc3, if_neg (fun h => hpid_ne_owner h.symm), if_pos rfl]
  have hc3e : ∀ k, k ≠ pid → k ≠ owner → childrenOf s3 k = childrenOf s k := by
    intro k h1 h2
    rw [hc3, if_neg h1, if_neg h2]
  have hA' : ∀ j, i ≤ j → j < cs.length →
      (getU s (cs.getD j 0)).fileExtension ≠ DIR →
      (getU s (cs.getD j 0)).children = none := by
    intro j h1 h2 h3
    have := hA j h1 (by rw [hco]; exact h2) (by rw [hco]; exact h3)
    rwa [hco] at this
  have e3B : i < (childrenOf s owner).length := by rw [hco]; exact hlt
  have e1B : (childrenOf s owner).getD (i - 1) 0 = pid := by rw [hco]; exact hpid.symm
  have e2B : (childrenOf s owner).getD i 0 = uid := by rw [hco]; exact huid.symm
  have hB' : ∀ L, (getU s pid).children = some L →
      L ≠ [] ∧ 0 ≤ multiPartComparison (getU s uid) (getU s (L.getLastD 0)) ∧
      (multiPartComparison (getU s (L.getLastD 0)) (getU s uid) = 0 →
        L.getLastD 0 < uid) := by
    intro L hL
    have h := hB hpos e3B (by rw [e1B]; exact hp_dir) (by rw [e1B]; exact hp_good.1) L
      (by rw [e1B]; exact hL)
    rwa [e2B] at h
  have hchain_cs : List.Chain' (fun a b =>
      0 ≤ multiPartComparison (getU s b) (getU s a)) cs := by
    have := I1 owner
    rwa [hco] at this
  have htie_cs : List.Pairwise (fun a b =>
      multiPartComparison (getU s a) (getU s b) = 0 → a < b) cs := by
    have := I2 owner
    rwa [hco] at this
  have hadj_pu : 0 ≤ multiPartComparison (getU s uid) (getU s pid) := by
    have h := chain_getD _ cs hchain_cs (i - 1) (by omega)
    rw [show i - 1 + 1 = i from by omega, ← hpid, ← huid] at h
    exact h
  have hadj_wu : i + 1 < cs.length →
      0 ≤ multiPartComparison (getU s (cs.getD (i + 1) 0)) (getU s uid) := by
    intro hi1
    have h := chain_getD _ cs hchain_cs i hi1
    rw [← huid] at h
    exact h
  have htie_uw : i + 1 < cs.length →
      (multiPartComparison (getU s uid) (getU s (cs.getD (i + 1) 0)) = 0 →
        uid < cs.getD (i + 1) 0) := by
    intro hi1
    have h := pairwise_getD _ cs htie_cs i (i + 1) (by omega) hi1 (by omega)
    rw [← huid] at h
    exact h
  have herase_len : (cs.eraseIdx i).length = cs.length - 1 := by
    rw [List.length_eraseIdx, if_pos hlt]
  have herase_ge : ∀ j, i ≤ j → j < (cs.eraseIdx i).length →
      (cs.eraseIdx i).getD j 0 = cs.getD (j + 1) 0 := by
    intro j h1 h2
    rw [getDl _ _ h2, getDl _ _ (by omega), List.getElem_eraseIdx, dif_neg (by omega)]
  have herase_lt : ∀ j, j < i → j < (cs.eraseIdx i).length →
      (cs.eraseIdx i).getD j 0 = cs.getD j 0 := by
    intro j h1 h2
    rw [getDl _ _ h2, getDl _ _ (by omega), List.getElem_eraseIdx, dif_pos h1]
  have huid_notin_erase : uid ∉ cs.eraseIdx i := by
    have h := not_mem_eraseIdx_self cs i hlt hnd_cs
    rw [huid, getDl _ _ hlt]
    exact h
  have hq1mem : ∀ o, o ∈ q1 → o ∈ q ∨ o = pid := by
    intro o ho
    rw [hq1] at ho
    by_cases hcr : (getU s pid).children = none
    · rw [if_pos hcr] at ho
      rcases List.mem_append.mp ho with h | h
      · exact Or.inl h
      · exact Or.inr (List.mem_singleton.mp h)
    · rw [if_neg hcr] at ho
      exact Or.inl ho
  have hmem3 : ∀ k x, x ∈ childrenOf s3 k → x ∈ childrenOf s k ∨ (k = pid ∧ x = uid) := by
    intro k x hx
    by_cases h1 : k = pid
    · subst h1
      rw [hc3p] at hx
      rcases List.mem_append.mp hx with h | h
      · exact Or.inl h
      · exact Or.inr ⟨rfl, List.mem_singleton.mp h⟩
    · by_cases h2 : k = owner
      · subst h2
        rw [hc3o] at hx
        refine Or.inl ?_
        rw [hco]
        exact (List.eraseIdx_sublist cs i).subset hx
      · rw [hc3e k h1 h2] at hx
        exact Or.inl hx
  refine ⟨⟨?inv1, ?inv2, ?inv3, ?inv4, ?inv5, ?inv6, ?inv7⟩, ?sa, ?sb, ?qp, ?ow, ?shr, ?pres⟩
  case inv1 =>
    have conv_adj : ∀ l, List.Chain' (fun a b =>
        0 ≤ multiPartComparison (getU s b) (getU s a)) l → adjOk s3 l := by
      intro l h
      exact List.Chain'.imp (fun a b hab => by rw [hmpc3]; exact hab) h
    intro k
    by_cases h1 : k = pid
    · subst h1
      rw [hc3p]
      apply conv_adj
      rw [List.chain'_append]
      refine ⟨I1 k, List.chain'_singleton uid, ?_⟩
      intro x hx y hy
      cases hch : (getU s k).children with
      | none =>
        rw [hch] at hx
        simp at hx
      | some L =>
        rw [hch] at hx
        simp only [Option.getD_some] at hx
        have hne : L ≠ [] := by
          cases L with
          | nil => simp at hx
          | cons a as => simp
        have hxx : x = L.getLast hne := by
          rw [List.getLast?_eq_getLast L hne] at hx
          exact (Option.mem_some_iff.mp hx).symm
        have hyy : y = uid := by
          symm
          simpa using hy
        rw [hxx, hyy, ← getLastD_of_ne L hne]
        exact (hB' L hch).2.1
    · by_cases h2 : k = owner
      · subst h2
        rw [hc3o]
        apply conv_adj
        refine chain_eraseIdx _ cs i hchain_cs ?_
        intro _ hi1
        rw [← hpid]
        cases hwn : (getU s (cs.getD (i + 1) 0)).numbering with
        | none =>
          show (0 : Int) ≤ cmpNumbering
            (getU s (cs.getD (i + 1) 0)).numbering (getU s pid).numbering
          rw [hwn]
          exact le_of_eq rfl
        | some wn =>
          have hwgood : (getU s (cs.getD (i + 1) 0)).numbering ≠ none ∧
              (getU s (cs.getD (i + 1) 0)).numbering ≠ some [] := by
            refine ⟨?_, I6 _⟩
            rw [hwn]
            exact fun h => Option.noConfusion h
          exact (mpc_trans _ _ _ hwgood hu_good hp_good (hadj_wu hi1) hadj_pu).1
      · rw [hc3e k h1 h2]
        exact conv_adj _ (I1 k)
  case inv2 =>
    have conv_tie : ∀ l, List.Pairwise (fun a b =>
        multiPartComparison (getU s a) (getU s b) = 0 → a < b) l → tieStab s3 l := by
      intro l h
      exact List.Pairwise.imp (fun {a b} hab h0 => hab ((hmpc3 a b).symm.trans h0)) h
    intro k
    by_cases h1 : k = pid
    · subst h1
      rw [hc3p]
      apply conv_tie
      rw [List.pairwise_append]
      refine ⟨I2 k, List.pairwise_singleton _ _, ?_⟩
      intro a ha b hb
      rw [List.mem_singleton] at hb
      rw [hb]
      intro h0
      cases hch : (getU s k).children with
      | none =>
        rw [hch] at ha
        exact absurd ha (List.not_mem_nil a)
      | some L =>
        rw [hch] at ha
        simp only [Option.getD_some] at ha
        have hBr := hB' L hch
        have hne : L ≠ [] := hBr.1
        have hlast_eq : L.getLastD 0 = L.getLast hne := getLastD_of_ne L hne
        by_cases halst : a = L.getLastD 0
        · rw [halst] at h0 ⊢
          exact hBr.2.2 h0
        · have hdec := List.dropLast_append_getLast hne
          have hadrop : a ∈ L.dropLast := by
            have hmm := ha
            rw [← hdec] at hmm
            rcases List.mem_append.mp hmm with h | h
            · exact h
            · rw [List.mem_singleton] at h
              rw [← hlast_eq] at h
              exact absurd h halst
          have hcp : childrenOf s k = L := by
            show (getU s k).children.getD [] = L
            rw [hch]
            rfl
          have goodL : ∀ x ∈ L,
              (getU s x).numbering ≠ none ∧ (getU s x).numbering ≠ some [] := by
            intro x hx
            refine ⟨?_, I6 x⟩
            refine I7 k hp_dir hp_good.1 x ?_
            rw [hcp]
            exact hx
          have hchainL : List.Chain' (fun a b =>
              0 ≤ multiPartComparison (getU s b) (getU s a)) L := hcp ▸ I1 k
          have htieL : List.Pairwise (fun a b =>
              multiPartComparison (getU s a) (getU s b) = 0 → a < b) L := hcp ▸ I2 k
          have hpairS := chain_to_pairwise _
            (fun x => (getU s x).numbering ≠ none ∧ (getU s x).numbering ≠ some [])
            (fun a b c pa pb pc hab hbc =>
              (mpc_trans (getU s c) (getU s b) (getU s a) pc pb pa hbc hab).1)
            L goodL hchainL
          have hS_la : 0 ≤ multiPartComparison (getU s (L.getLast hne)) (getU s a) := by
            rw [← hdec] at hpairS
            exact (List.pairwise_append.mp hpairS).2.2 a hadrop (L.getLast hne)
              (List.mem_singleton.mpr rfl)
          have hTa_lst : multiPartComparison (getU s a) (getU s (L.getLast hne)) = 0 →
              a < L.getLast hne := by
            rw [← hdec] at htieL
            exact (List.pairwise_append.mp htieL).2.2 a hadrop (L.getLast hne)
              (List.mem_singleton.mpr rfl)
          have good_a := goodL a ha
          have good_lst := goodL (L.getLast hne) (List.getLast_mem hne)
          have hle' : 0 ≤ multiPartComparison (getU s uid) (getU s (L.getLast hne)) := by
            rw [← hlast_eq]
            exact hBr.2.1
          have htr := mpc_trans (getU s uid) (getU s (L.getLast hne)) (getU s a)
            hu_good good_lst good_a hle' hS_la
          have h0' : multiPartComparison (getU s uid) (getU s a) = 0 := by
            have := mpc_antisym (getU s a) (getU s uid)
            omega
          obtain ⟨hz1, hz2⟩ := htr.2 h0'
          have hlu : L.getLast hne < uid := by
            have h := hBr.2.2 (by
              rw [hlast_eq]
              have := mpc_antisym (getU s (L.getLast hne)) (getU s uid)
              omega)
            rw [hlast_eq] at h
            exact h
          have hal : a < L.getLast hne := by
            apply hTa_lst
            have := mpc_antisym (getU s a) (getU s (L.getLast hne))
            omega
          omega
    · by_cases h2 : k = owner
      · subst h2
        rw [hc3o]
        apply conv_tie
        exact List.Pairwise.sublist (List.eraseIdx_sublist cs i) htie_cs
      · rw [hc3e k h1 h2]
        exact conv_tie _ (I2 k)
  case inv3 =>
    intro k j x hk hj
    rcases hmem3 k x hk with hk' | ⟨hkp, hxu⟩
    · rcases hmem3 j x hj with hj' | ⟨hjp, hxu⟩
      · exact I3 k j x hk' hj'
      · have hko : k = owner := I3 k owner x hk' (by rw [hco, hxu]; exact huid_mem)
        rw [hko, hc3o] at hk
        rw [hxu] at hk
        exact absurd hk huid_notin_erase
    · rcases hmem3 j x hj with hj' | ⟨hjp, _⟩
      · have hjo : j = owner := I3 j owner x hj' (by rw [hco, hxu]; exact huid_mem)
        rw [hjo, hc3o] at hj
        rw [hxu] at hj
        exact absurd hj huid_notin_erase
      · rw [hkp, hjp]
  case inv4 =>
    intro k
    by_cases h1 : k = pid
    · subst h1
      rw [hc3p]
      rw [List.nodup_append]
      refine ⟨I4 k, List.nodup_singleton uid, ?_⟩
      intro a ha hb
      rw [List.mem_singleton] at hb
      subst hb
      have : k = owner := I3 k owner a ha (by rw [hco]; exact huid_mem)
      exact hpid_ne_owner this
    · by_cases h2 : k = owner
      · subst h2
        rw [hc3o]
        exact List.Nodup.sublist (List.eraseIdx_sublist cs i) (hco ▸ I4 k)
      · rw [hc3e k h1 h2]
        exact I4 k
  case inv5 =>
    intro k
    by_cases h1 : k = pid
    · subst h1
      rw [hc3p]
      intro hmem
      rcases List.mem_append.mp hmem with h | h
      · exact I5 k h
      · exact hpid_ne_uid (List.mem_singleton.mp h)
    · by_cases h2 : k = owner
      · subst h2
        rw [hc3o]
        intro hmem
        exact I5 k (hco ▸ (List.eraseIdx_sublist cs i).subset hmem)
      · rw [hc3e k h1 h2]
        exact I5 k
  case inv6 =>
    intro k
    rw [hnum3]
    exact I6 k
  case inv7 =>
    intro k hkd hkn m hm
    rw [hext3] at hkd
    rw [hnum3] at hkn
    rw [hnum3]
    rcases hmem3 k m hm with hm' | ⟨hkp, hmu⟩
    · exact I7 k hkd hkn m hm'
    · rw [hmu]
      exact hu_good.1
  case sa =>
    intro j hij hjl hd
    rw [hc3o] at hjl hd ⊢
    rw [herase_ge j hij hjl] at hd ⊢
    have hmem : cs.getD (j + 1) 0 ∈ cs := by
      rw [getDl _ _ (by omega)]
      exact List.getElem_mem _
    have hne_own : cs.getD (j + 1) 0 ≠ owner := by
      intro h
      exact I5 owner (hco ▸ (h ▸ hmem))
    have hne_pid : cs.getD (j + 1) 0 ≠ pid := by
      intro h
      rw [hpid] at h
      have := nodup_getD_inj cs hnd_cs (j + 1) (i - 1) (by omega) (by omega) h
      omega
    rw [hext3] at hd
    rw [hg3, if_neg hne_pid, if_neg hne_own]
    exact hA' (j + 1) (by omega) (by omega) hd
  case sb =>
    intro hpos1 hlt1 hd1 hn1 L1 hL1
    rw [hc3o] at hlt1
    have hslot : (childrenOf s3 owner).getD (i - 1) 0 = pid := by
      rw [hc3o, herase_lt (i - 1) (by omega) (by omega)]
      exact hpid.symm
    rw [hslot] at hL1
    have hcand : (childrenOf s3 owner).getD i 0 = cs.getD (i + 1) 0 := by
      rw [hc3o, herase_ge i (le_refl i) hlt1]
    have hchL : (getU s3 pid).children =
        some (((getU s pid).children.getD []) ++ [uid]) := by
      rw [hg3, if_pos rfl]
    rw [hchL] at hL1
    have hL1e : L1 = ((getU s pid).children.getD []) ++ [uid] := (Option.some.inj hL1).symm
    have hi1 : i + 1 < cs.length := by omega
    refine ⟨by rw [hL1e]; simp, ?_, ?_⟩
    · rw [hcand, hL1e, getLastD_concat_nat, hmpc3]
      exact hadj_wu hi1
    · rw [hcand, hL1e, getLastD_concat_nat, hmpc3]
      exact htie_uw hi1
  case qp =>
    have huid_ch_none : (getU s uid).children = none := by
      have := hA' i (le_refl i) hlt (by rw [← huid]; exact hu_dir)
      rwa [← huid] at this
    refine ⟨?_, ?_, ?_⟩
    · rw [hq1]
      split
      · next hcr =>
        rw [List.nodup_append]
        refine ⟨Qn, List.nodup_singleton pid, ?_⟩
        intro a ha hb
        rw [List.mem_singleton] at hb
        subst hb
        exact (Q3 a ha) hcr
      · exact Qn
    · intro o ho
      rw [hg3]
      by_cases h1 : o = pid
      · rw [if_pos h1]
        simp
      · rw [if_neg h1]
        by_cases h2 : o = owner
        · rw [if_pos h2]
          simp
        · rw [if_neg h2]
          rcases hq1mem o ho with h | h
          · exact Q3 o h
          · exact absurd h h1
    · intro o ho m hm hd
      rw [hext3] at hd
      by_cases hop : o = pid
      · subst hop
        rw [hc3p] at hm
        rcases List.mem_append.mp hm with hmL | hmu
        · cases hch : (getU s o).children with
          | none =>
            rw [hch] at hmL
            exact absurd hmL (List.not_mem_nil m)
          | some L =>
            have hpq : o ∈ q := by
              rw [hq1, if_neg (by rw [hch]; exact fun hc => Option.noConfusion hc)] at ho
              exact ho
            have hmnone := QM o hpq m hmL hd
            rw [hg3]
            by_cases hm1 : m = o
            · exact absurd (hm1 ▸ hmL) (I5 o)
            · rw [if_neg hm1]
              by_cases hm2 : m = owner
              · rw [hm2, hch_some] at hmnone
                exact Option.noConfusion hmnone
              · rw [if_neg hm2]
                exact hmnone
        · rw [List.mem_singleton] at hmu
          subst hmu
          rw [hg3, if_neg (fun h => hpid_ne_uid h.symm), if_neg huid_ne_owner]
          exact huid_ch_none
      · have hoq : o ∈ q := (hq1mem o ho).resolve_right hop
        have hoo : o ≠ owner := fun h => howq (h ▸ hoq)
        rw [hc3e o hop hoo] at hm
        have hmnone := QM o hoq m hm hd
        rw [hg3]
        by_cases hm1 : m = pid
        · have : o = owner := I3 o owner pid (hm1 ▸ hm) (by rw [hco]; exact hpid_mem)
          exact absurd this hoo
        · rw [if_neg hm1]
          by_cases hm2 : m = owner
          · rw [hm2, hch_some] at hmnone
            exact Option.noConfusion hmnone
          · rw [if_neg hm2]
            exact hmnone
  case ow =>
    rw [hq1]
    split
    · intro h
      rcases List.mem_append.mp h with h | h
      · exact howq h
      · exact hpid_ne_owner (List.mem_singleton.mp h).symm
    · exact howq
  case shr =>
    intro k hguard m hm
    have hguard' : (getU s k).fileExtension = DIR ∨ (getU s k).numbering = none := by
      rcases hguard with h | h
      · exact Or.inl ((hext3 k).symm.trans h)
      · exact Or.inr ((hnum3 k).symm.trans h)
    by_cases h1 : k = pid
    · exfalso
      rcases hguard' with h | h
      · exact hp_dir (h1 ▸ h)
      · exact hp_good.1 (h1 ▸ h)
    · by_cases h2 : k = owner
      · subst h2
        rw [hc3o] at hm
        refine hshr k hguard' m ?_
        rw [hco]
        exact (List.eraseIdx_sublist cs i).subset hm
      · rw [hc3e k h1 h2] at hm
        exact hshr k hguard' m hm
  case pres => exact fun x => ⟨hnum3 x, hext3 x⟩

theorem scanGroup_inv (Init : Nat → List Nat) (owner : Nat) :
    ∀ (fuel : Nat) (s : EngineState) (i : Nat) (q : List Nat),
      invAll s → sclA s owner i → sclB s owner i → queueProp s q → owner ∉ q →
      shrinkTo Init s →
      invAll (scanGroup s owner i fuel q).1 ∧
      queueProp (scanGroup s owner i fuel q).1 (scanGroup s owner i fuel q).2 ∧
      owner ∉ (scanGroup s owner i fuel q).2 ∧
      shrinkTo Init (scanGroup s owner i fuel q).1 ∧
      (∀ x, (getU (scanGroup s owner i fuel q).1 x).numbering = (getU s x).numbering ∧
        (getU (scanGroup s owner i fuel q).1 x).fileExtension =
          (getU s x).fileExtension) := by
  intro fuel
  induction fuel with
  | zero =>
    intro s i q hinv _ _ hQ howq hshr
    exact ⟨hinv, hQ, howq, hshr, fun x => ⟨rfl, rfl⟩⟩
  | succ fuel ih =>
    intro s i q hinv hA hB hQ howq hshr
    rw [scanGroup]
    dsimp only
    split
    · next hlt =>
      split
      · next hpos =>
        split
        · next hprom =>
          obtain ⟨h1, h2, h3, h4, h5, h6, h7⟩ := promo_step Init s owner i q _ _ _ _ _ _ _
            rfl rfl rfl rfl rfl rfl rfl hinv hA hB hQ howq hshr hlt hpos hprom
          have hrec := ih _ i _ h1 h2 h3 h4 h5 h6
          refine ⟨hrec.1, hrec.2.1, hrec.2.2.1, hrec.2.2.2.1, fun x => ?_⟩
          exact ⟨(hrec.2.2.2.2 x).1.trans (h7 x).1, (hrec.2.2.2.2 x).2.trans (h7 x).2⟩
        · next hnoprom =>
          refine ih s (i + 1) q hinv (fun j hij hj => hA j (by omega) hj) ?_ hQ howq hshr
          intro hpos1 hlt1 hdir1 hnum1 L hL
          have hnone := hA i (le_refl i) (by omega) hdir1
          exact Option.noConfusion (hnone.symm.trans hL)
      · next hnpos =>
        have hzero : i = 0 := by omega
        refine ih s (i + 1) q hinv (fun j hij hj => hA j (by omega) hj) ?_ hQ howq hshr
        intro hpos1 hlt1 hdir1 hnum1 L hL
        have hnone := hA i (le_refl i) (by omega) hdir1
        exact Option.noConfusion (hnone.symm.trans hL)
    · next hge => exact ⟨hinv, hQ, howq, hshr, fun x => ⟨rfl, rfl⟩⟩

/-! ## The finalised tree honours adjacent comparator order and tie
insertion-order in every sibling list. -/
theorem promoteLoop_inv (Init : Nat → List Nat) :
    ∀ (fuel : Nat) (s : EngineState) (q : List Nat),
      invAll s → queueProp s q → shrinkTo Init s →
      invAll (promoteLoop s q fuel).1 ∧ shrinkTo Init (promoteLoop s q fuel).1 ∧
      (∀ x, (getU (promoteLoop s q fuel).1 x).numbering = (getU s x).numbering ∧
        (getU (promoteLoop s q fuel).1 x).fileExtension =
          (getU s x).fileExtension) := by
  intro fuel
  induction fuel with
  | zero =>
    intro s q hinv _ hshr
    cases q <;> exact ⟨hinv, hshr, fun x => ⟨rfl, rfl⟩⟩
  | succ fuel ih =>
    intro s q hinv hQ hshr
    cases q with
    | nil => exact ⟨hinv, hshr, fun x => ⟨rfl, rfl⟩⟩
    | cons owner rest =>
      rw [promoteLoop]
      obtain ⟨Qn, Q3, QM⟩ := hQ
      rw [List.nodup_cons] at Qn
      have hQrest : queueProp s rest :=
        ⟨Qn.2, fun o ho => Q3 o (List.mem_cons_of_mem _ ho),
          fun o ho => QM o (List.mem_cons_of_mem _ ho)⟩
      have hA0 : sclA s owner 0 := by
        intro j _ hj hd
        refine QM owner (List.mem_cons_self _ _) _ ?_ hd
        rw [getDl _ _ hj]
        exact List.getElem_mem _
      have hB0 : sclB s owner 0 := fun h => absurd h (lt_irrefl 0)
      have hr := scanGroup_inv Init owner (scanFuel s owner) s 0 rest hinv hA0 hB0
        hQrest Qn.1 hshr
      have hrec := ih _ _ hr.1 hr.2.1 hr.2.2.2.1
      refine ⟨hrec.1, hrec.2.1, fun x => ?_⟩
      exact ⟨(hrec.2.2 x).1.trans (hr.2.2.2.2 x).1, (hrec.2.2 x).2.trans (hr.2.2.2.2 x).2⟩

theorem buildIndex_inv (s : EngineState) (sp : List (List Char)) (hwf : wfPre s) :
    invAll (buildIndex s sp) ∧
    shrinkTo (fun k => childrenOf s k) (buildIndex s sp) ∧
    (∀ x, (getU (buildIndex s sp) x).numbering = (getU s x).numbering ∧
      (getU (buildIndex s sp) x).fileExtension = (getU s x).fileExtension) := by
  obtain ⟨w1, w2, w3, w4, w5, w6, w7, w8, w9⟩ := hwf
  set s1 : EngineState := { s with isIndexSealed := true } with hs1
  have hg1 : ∀ x, getU s1 x = getU s x := fun x => rfl
  have hl1 : s1.units.length = s.units.length := rfl
  have hrg1 : s1.rawGroups = s.rawGroups := rfl
  set s2 : EngineState := applyExclusions s1 sp with hs2
  have hrg2 : s2.rawGroups = s.rawGroups := by
    obtain ⟨us, fs, h⟩ := applyExclusions_shape s1 sp
    rw [hs2, h]
  have hl2 : s2.units.length = s.units.length := applyExclusions_length s1 sp
  have hch2 : ∀ x, (getU s2 x).children = (getU s x).children := fun x =>
    children_applyExclusions s1 sp x
  have hnum2 : ∀ x, (getU s2 x).numbering = (getU s x).numbering := fun x =>
    numbering_applyExclusions s1 sp x
  have hext2 : ∀ x, (getU s2 x).fileExtension = (getU s x).fileExtension := fun x =>
    ext_applyExclusions s1 sp x
  have hco2 : ∀ x, childrenOf s2 x = childrenOf s x := by
    intro x
    unfold childrenOf
    rw [hch2]
  obtain ⟨P1, P2, P3, P4, P5⟩ := foldl_sortOwner_facts s2.rawGroups s2
    (fun i j => multiPartComparison (getU s2 i) (getU s2 j))
    (by rw [hrg2]; exact w5) (fun i j => rfl)
  set c : Nat → Nat → Int := fun i j => multiPartComparison (getU s2 i) (getU s2 j) with hc
  set s3 : EngineState := sortGroups s2 with hs3
  have hs3f : s3 = s2.rawGroups.foldl sortOwner s2 := rfl
  have P1' : ∀ x, (getU s3 x).numbering = (getU s x).numbering := by
    intro x
    rw [hs3f, P1, hnum2]
  have P2' : ∀ x, (getU s3 x).fileExtension = (getU s x).fileExtension := by
    intro x
    rw [hs3f, P2, hext2]
  have P3' : ∀ x, (getU s3 x).children =
      if x ∈ s.rawGroups then ((getU s x).children).map (jsSort c)
      else (getU s x).children := by
    intro x
    rw [hs3f, P3, hrg2, hch2]
  have hco3 : ∀ x, childrenOf s3 x =
      if x ∈ s.rawGroups then jsSort c (childrenOf s x) else childrenOf s x := by
    intro x
    unfold childrenOf
    rw [P3']
    by_cases hx : x ∈ s.rawGroups
    · rw [if_pos hx, if_pos hx]
      cases h : (getU s x).children with
      | none => rfl
      | some L => rfl
    · rw [if_neg hx, if_neg hx]
  have hmem3 : ∀ x k, x ∈ childrenOf s3 k → x ∈ childrenOf s k := by
    intro x k hx
    rw [hco3] at hx
    by_cases hk : k ∈ s.rawGroups
    · rw [if_pos hk] at hx
      exact (jsSort_perm c (childrenOf s k)).mem_iff.mp hx
    · rw [if_neg hk] at hx
      exact hx
  have hempty : ∀ k, k ∉ s.rawGroups ∨ s.units.length ≤ k → childrenOf s k = [] := by
    intro k hk
    rcases hk with hk | hk
    · by_cases hkl : k < s.units.length
      · unfold childrenOf
        by_cases hcn : (getU s k).children = none
        · rw [hcn]
          rfl
        · exact absurd (w6 k hkl hcn) hk
      · exact childrenOf_le s k (by omega)
    · exact childrenOf_le s k hk
  have hmpcc : ∀ x y, multiPartComparison (getU s3 x) (getU s3 y) = c x y := by
    intro x y
    show cmpNumbering (getU s3 x).numbering (getU s3 y).numbering = c x y
    rw [P1', P1']
    show _ = cmpNumbering (getU s2 x).numbering (getU s2 y).numbering
    rw [hnum2, hnum2]
  have hanti : ∀ p q, c p q < 0 → 0 < c q p := by
    intro p q h
    have ha := mpc_antisym (getU s2 p) (getU s2 q)
    have e1 : c p q = multiPartComparison (getU s2 p) (getU s2 q) := rfl
    have e2 : c q p = multiPartComparison (getU s2 q) (getU s2 p) := rfl
    rw [e1] at h
    rw [e2]
    omega
  have hinv3 : invAll s3 := by
    refine ⟨?_, ?_, ?_, ?_, ?_, ?_, ?_⟩
    · intro k
      rw [hco3]
      by_cases hk : k ∈ s.rawGroups
      · rw [if_pos hk]
        refine List.Chain'.imp ?_ (jsSort_chain c hanti (childrenOf s k))
        intro a b hab
        rw [hmpcc]
        exact hab
      · rw [if_neg hk, hempty k (Or.inl hk)]
        exact List.chain'_nil
    · intro k
      rw [hco3]
      by_cases hk : k ∈ s.rawGroups
      · rw [if_pos hk]
        by_cases hkl : k < s.units.length
        · refine List.Pairwise.imp ?_ (jsSort_pairwiseT c (· < ·) (childrenOf s k) (w1 k hkl))
          intro a b hab h0
          exact hab ((hmpcc a b).symm.trans h0)
        · rw [childrenOf_le s k (by omega)]
          exact List.Pairwise.nil
      · rw [if_neg hk, hempty k (Or.inl hk)]
        exact List.Pairwise.nil
    · intro k j x hk hj
      have hk' := hmem3 x k hk
      have hj' := hmem3 x j hj
      have hkl : k < s.units.length := by
        by_contra h
        rw [childrenOf_le s k (by omega)] at hk'
        exact List.not_mem_nil x hk'
      have hjl : j < s.units.length := by
        by_contra h
        rw [childrenOf_le s j (by omega)] at hj'
        exact List.not_mem_nil x hj'
      exact w2 k hkl j hjl x hk' hj'
    · intro k
      rw [hco3]
      by_cases hk : k ∈ s.rawGroups
      · rw [if_pos hk]
        rw [(jsSort_perm c (childrenOf s k)).nodup_iff]
        by_cases hkl : k < s.units.length
        · exact (w1 k hkl).imp (fun h => Nat.ne_of_lt h)
        · rw [childrenOf_le s k (by omega)]
          exact List.nodup_nil
      · rw [if_neg hk, hempty k (Or.inl hk)]
        exact List.nodup_nil
    · intro k hk
      have hk' := hmem3 k k hk
      have hkl : k < s.units.length := by
        by_contra h
        rw [childrenOf_le s k (by omega)] at hk'
        exact List.not_mem_nil k hk'
      exact w7 k hkl hk'
    · intro k
      rw [P1']
      by_cases hkl : k < s.units.length
      · exact w4 k hkl
      · rw [getU_of_le s k (by omega)]
        exact fun h => Option.noConfusion h
    · intro k hkd hkn m hm
      rw [P2'] at hkd
      rw [P1'] at hkn
      rw [P1']
      by_cases hkl : k < s.units.length
      · have hchn := w8 k hkl hkd hkn
        have : childrenOf s k = [] := by
          unfold childrenOf
          rw [hchn]
          rfl
        have hmm := hmem3 m k hm
        rw [this] at hmm
        exact absurd hmm (List.not_mem_nil m)
      · have : childrenOf s k = [] := childrenOf_le s k (by omega)
        have hmm := hmem3 m k hm
        rw [this] at hmm
        exact absurd hmm (List.not_mem_nil m)
  have hQ3 : queueProp { s3 with rawGroups := ([] : List Nat) } s3.rawGroups := by
    have hrg3 : s3.rawGroups = s.rawGroups := by rw [hs3f, P5, hrg2]
    have hgg : ∀ x, getU { s3 with rawGroups := ([] : List Nat) } x = getU s3 x :=
      fun x => rfl
    refine ⟨by rw [hrg3]; exact w5, ?_, ?_⟩
    · intro o ho
      rw [hgg, P3']
      rw [hrg3] at ho
      rw [if_pos ho]
      have := w9 o ho
      cases h : (getU s o).children with
      | none => exact absurd h this
      | some L => simp
    · intro o ho m hm hd
      rw [hrg3] at ho
      have hol : o < s.units.length := by
        by_contra h
        refine (w9 o ho) ?_
        rw [getU_of_le s o (by omega)]
        rfl
      have hm' : m ∈ childrenOf s o := hmem3 m o hm
      rw [hgg, P2'] at hd
      have hchn := w3 o hol m hm' hd
      rw [hgg, P3']
      by_cases hmr : m ∈ s.rawGroups
      · rw [if_pos hmr, hchn]
        rfl
      · rw [if_neg hmr]
        exact hchn
  have hshr3 : shrinkTo (fun k => childrenOf s k) { s3 with rawGroups := ([] : List Nat) } := by
    intro k _ m hm
    exact hmem3 m k hm
  have hfin := promoteLoop_inv (fun k => childrenOf s k)
    (s3.rawGroups.length + s3.units.length + 1)
    { s3 with rawGroups := ([] : List Nat) } s3.rawGroups hinv3 hQ3 hshr3
  refine ⟨(hfin.1 : _), (hfin.2.1 : _), fun x => ?_⟩
  have hpx := hfin.2.2 x
  exact ⟨(hpx.1 : _).trans (P1' x), (hpx.2 : _).trans (P2' x)⟩

theorem pairwise_of_mem {α : Type} (R : α → α → Prop) :
    ∀ (l : List α), (∀ a ∈ l, ∀ b ∈ l, R a b) → List.Pairwise R l := by
  intro l
  induction l with
  | nil => intro _; exact List.Pairwise.nil
  | cons x xs ih =>
    intro h
    rw [List.pairwise_cons]
    refine ⟨fun b hb => h x (List.mem_cons_self x xs) b (List.mem_cons_of_mem x hb), ?_⟩
    exact ih (fun a ha b hb =>
      h a (List.mem_cons_of_mem x ha) b (List.mem_cons_of_mem x hb))

theorem allPairs_of_keyed (t : EngineState) (ids : List Nat)
    (hmem : ∀ m ∈ ids, (getU t m).numbering ≠ none ∧ (getU t m).numbering ≠ some [])
    (hadj : adjOk t ids) : allPairsOk t ids :=
  chain_to_pairwise _
    (fun x => (getU t x).numbering ≠ none ∧ (getU t x).numbering ≠ some [])
    (fun a b c pa pb pc hab hbc =>
      (mpc_trans (getU t c) (getU t b) (getU t a) pc pb pa hbc hab).1)
    ids hmem hadj

theorem allPairs_of_null (t : EngineState) (ids : List Nat)
    (hmem : ∀ m ∈ ids, (getU t m).numbering = none) : allPairsOk t ids := by
  refine pairwise_of_mem _ ids (fun a ha b hb => ?_)
  show (0 : Int) ≤ cmpNumbering (getU t b).numbering (getU t a).numbering
  rw [hmem a ha, cmpNumbering_none_right]

/-- C2 amended: for a well-formed walk-produced index every one of whose
sibling groups is numbering-homogeneous — its members either all carry a
numbering key or all lack one — `buildIndex` yields a tree in which every
parent's children honour `_multiPartComparison` in the all-pairs sense
and every tied pair keeps its insertion (arena) order.  On homogeneous
groups the comparator is consistent, so ECMAScript fully determines the
host sort (sorted and stable) and the `jsSort` model provably coincides
with it; on mixed groups the claimed property is refuted by
`C2_counterexample` and the host sort order is implementation-defined, so
no stronger universal statement is a property of the program. -/
theorem C2_sibling_order (s : EngineState) (sp : List (List Char)) (hwf : wfPre s)
    (hhom : ∀ k, k < s.units.length →
      (∀ m ∈ childrenOf s k, (getU s m).numbering ≠ none) ∨
      (∀ m ∈ childrenOf s k, (getU s m).numbering = none)) :
    ∀ k, allPairsOk (buildIndex s sp) (childrenOf (buildIndex s sp) k) ∧
      tieStab (buildIndex s sp) (childrenOf (buildIndex s sp) k) := by
  obtain ⟨hinv, hshr, hpres⟩ := buildIndex_inv s sp hwf
  obtain ⟨I1, I2, I3, I4, I5, I6, I7⟩ := hinv
  intro k
  refine ⟨?_, I2 k⟩
  by_cases hkey : (getU (buildIndex s sp) k).fileExtension ≠ DIR ∧
      (getU (buildIndex s sp) k).numbering ≠ none
  · exact allPairs_of_keyed _ _
      (fun m hm => ⟨I7 k hkey.1 hkey.2 m hm, I6 m⟩) (I1 k)
  · have hguard : (getU (buildIndex s sp) k).fileExtension = DIR ∨
        (getU (buildIndex s sp) k).numbering = none := by
      by_cases h1 : (getU (buildIndex s sp) k).fileExtension = DIR
      · exact Or.inl h1
      · by_cases h2 : (getU (buildIndex s sp) k).numbering = none
        · exact Or.inr h2
        · exact absurd ⟨h1, h2⟩ hkey
    have hsub : ∀ m ∈ childrenOf (buildIndex s sp) k, m ∈ childrenOf s k :=
      hshr k hguard
    by_cases hkl : k < s.units.length
    · rcases hhom k hkl with hh | hh
      · refine allPairs_of_keyed _ _ (fun m hm => ⟨?_, I6 m⟩) (I1 k)
        rw [(hpres m).1]
        exact hh m (hsub m hm)
      · refine allPairs_of_null _ _ (fun m hm => ?_)
        rw [(hpres m).1]
        exact hh m (hsub m hm)
    · have hnil : childrenOf (buildIndex s sp) k = [] := by
        have h0 : childrenOf s k = [] := childrenOf_le s k (by omega)
        refine List.eq_nil_iff_forall_not_mem.mpr (fun m hm => ?_)
        have := hsub m hm
        rw [h0] at this
        exact List.not_mem_nil m this
      rw [hnil]
      exact List.Pairwise.nil

/-- Witness for `C2_sibling_order` at the run of the C1 example, whose
single sibling group is homogeneous (all four files carry keys): the
finalised root group satisfies the all-pairs order and tie stability. -/
theorem C2_sibling_order_witness :
    (wfPre c1Pre ∧
      (∀ k, k < c1Pre.units.length →
        (∀ m ∈ childrenOf c1Pre k, (getU c1Pre m).numbering ≠ none) ∨
        (∀ m ∈ childrenOf c1Pre k, (getU c1Pre m).numbering = none))) ∧
    (allPairsOk (buildIndex c1Pre []) (childrenOf (buildIndex c1Pre []) 0) ∧
      tieStab (buildIndex c1Pre []) (childrenOf (buildIndex c1Pre []) 0)) := by
  have hwf : wfPre c1Pre := by
    unfold wfPre
    refine ⟨by decide, by decide, by decide, by decide, by decide, by decide, by decide,
      by decide, by decide⟩
  have hhom : ∀ k, k < c1Pre.units.length →
      (∀ m ∈ childrenOf c1Pre k, (getU c1Pre m).numbering ≠ none) ∨
      (∀ m ∈ childrenOf c1Pre k, (getU c1Pre m).numbering = none) := by
    decide
  exact ⟨⟨hwf, hhom⟩, C2_sibling_order c1Pre [] hwf hhom 0⟩
